import Mathlib

/-!
Verification development for the mini-rag repository (src/extract.py, src/run.py).

Texts are modelled as `List Char` (Python `str` is a sequence of code points),
file contents as `List ℕ` (byte values). Filesystem snapshots are finite trees
whose directory listings are kept in the order the operating system reports
them (`os.scandir` order), since the source never sorts them except where
noted.
-/

/-- Shorthand for Python strings: a list of unicode code points. -/
abbrev Str := List Char

/-- Convert a Lean string literal to the `Str` model. -/
def cs (s : String) : Str := s.data

/-- Allow-listed file extensions, from `ALLOWED_EXTS` in src/extract.py. -/
def ALLOWED_EXTS : List Str :=
  [cs ".py", cs ".ipynb", cs ".js", cs ".mjs", cs ".cjs", cs ".ts", cs ".tsx", cs ".jsx",
   cs ".vue", cs ".svelte", cs ".java", cs ".kt", cs ".kts", cs ".scala", cs ".go", cs ".rs",
   cs ".c", cs ".h", cs ".cpp", cs ".cc", cs ".cxx", cs ".hpp", cs ".hh", cs ".m", cs ".mm",
   cs ".cs", cs ".fs", cs ".fsx", cs ".php", cs ".rb", cs ".swift", cs ".lua", cs ".pl",
   cs ".pm", cs ".r", cs ".dart", cs ".groovy", cs ".gradle", cs ".sql", cs ".proto",
   cs ".graphql", cs ".gql", cs ".json", cs ".json5", cs ".toml", cs ".ini", cs ".cfg",
   cs ".conf", cs ".yaml", cs ".yml", cs ".env", cs ".properties", cs ".xml", cs ".html",
   cs ".htm", cs ".css", cs ".scss", cs ".sass", cs ".less", cs ".md", cs ".markdown",
   cs ".rst", cs ".adoc", cs ".txt", cs ".csv", cs ".tsv", cs ".log", cs ".org"]

/-- Special basenames and their language tags, from `SPECIAL_BASENAMES` in src/extract.py. -/
def SPECIAL_BASENAMES : List (Str × Str) :=
  [(cs "Dockerfile", cs "dockerfile"), (cs "Makefile", cs "make"),
   (cs "CMakeLists.txt", cs "cmake"), (cs "BUILD", cs "bazel"), (cs "WORKSPACE", cs "bazel"),
   (cs "Podfile", cs "cocoapods"), (cs "Gemfile", cs "ruby-gems"),
   (cs "requirements.txt", cs "python-reqs"), (cs "environment.yml", cs "conda-env"),
   (cs "Pipfile", cs "pipenv"), (cs "Pipfile.lock", cs "pipenv-lock"),
   (cs "package.json", cs "npm"), (cs "pnpm-lock.yaml", cs "pnpm-lock"),
   (cs "yarn.lock", cs "yarn-lock"), (cs "poetry.lock", cs "poetry-lock"),
   (cs "pyproject.toml", cs "pyproject"), (cs "Cargo.toml", cs "cargo"),
   (cs "Cargo.lock", cs "cargo-lock"), (cs "go.mod", cs "gomod"), (cs "go.sum", cs "gosum"),
   (cs "composer.json", cs "composer"), (cs "composer.lock", cs "composer-lock"),
   (cs "pom.xml", cs "maven"), (cs "build.gradle.kts", cs "gradle-kts"),
   (cs "build.gradle", cs "gradle"), (cs ".gitignore", cs "git"),
   (cs ".gitattributes", cs "git"), (cs ".editorconfig", cs "editor")]

/-- Ignored directory basenames, from `IGNORE_DIRS` in src/extract.py. -/
def IGNORE_DIRS : List Str :=
  [cs ".git", cs ".hg", cs ".svn", cs ".bzr", cs "node_modules", cs "dist", cs "build",
   cs "out", cs "target", cs ".idea", cs ".vscode", cs ".vs", cs "__pycache__", cs ".venv",
   cs "venv", cs ".mypy_cache", cs ".pytest_cache", cs ".gradle", cs ".next", cs ".nuxt",
   cs ".parcel-cache"]

/-- Index of the last `'.'` in a name, as Python `str.rfind('.')` (None when absent). -/
def rfindDot (name : Str) : Option ℕ :=
  ((List.range name.length).filter (fun i => name.getD i ' ' == '.')).getLast?

/-- Model of `pathlib.PurePath.suffix` on a basename: the final component from the
last dot, empty when the dot is the first character, the last character, or absent. -/
def pathSuffix (name : Str) : Str :=
  match rfindDot name with
  | none => []
  | some i => if 0 < i ∧ i < name.length - 1 then name.drop i else []

/-- ASCII lower-casing of a string, modelling Python `str.lower` on the ASCII range
(all extensions in the allow-list are ASCII). -/
def lowerStr (s : Str) : Str := s.map Char.toLower

/-- Model of `is_allowed_file` (src/extract.py lines 59-62): the basename is a special
basename, or its lower-cased suffix is in the extension allow-list. -/
def is_allowed_file (name : Str) : Bool :=
  SPECIAL_BASENAMES.any (fun kv => kv.1 == name) ||
    ALLOWED_EXTS.contains (lowerStr (pathSuffix name))

/-- Model of `detect_lang` (src/extract.py lines 79-83): special basenames take
priority; otherwise the lower-cased suffix with leading dots stripped, or "plain". -/
def detect_lang (name : Str) : Str :=
  match SPECIAL_BASENAMES.find? (fun kv => kv.1 == name) with
  | some kv => kv.2
  | none =>
    let ext := (lowerStr (pathSuffix name)).dropWhile (· == '.')
    if ext.isEmpty then cs "plain" else ext

/-- A filesystem snapshot: a file with its byte content, or a directory whose entry
list is in the order the operating system reports it. -/
inductive FSTree where
  | file (name : Str) (content : List ℕ) : FSTree
  | dir (name : Str) (entries : List FSTree) : FSTree

/-- Plain files of one directory listing, in listing order (`os.walk` partitions a
listing into non-directories and directories preserving order). -/
def filesOf : List FSTree → List (Str × List ℕ)
  | [] => []
  | .file n c :: ts => (n, c) :: filesOf ts
  | .dir _ _ :: ts => filesOf ts

/-- Subdirectories of one directory listing, in listing order. -/
def subdirsOf : List FSTree → List (Str × List FSTree)
  | [] => []
  | .file _ _ :: ts => subdirsOf ts
  | .dir d es :: ts => (d, es) :: subdirsOf ts

/-- One file yielded by the walk: the directory components of its path relative to
the root, its basename, and its content (the content is carried along because the
extraction loop immediately reopens each yielded path on the same snapshot). -/
structure WalkedFile where
  relDirs : List Str
  name : Str
  content : List ℕ
deriving DecidableEq

mutual

/-- Model of `file_iter` (src/extract.py lines 102-111) on one subtree: `os.walk`
top-down order yields every allowed file of the current directory (in listing order,
the source does not sort here), then recurses into each non-ignored subdirectory in
listing order; ignored directory names are pruned before descent. -/
def walkTree (pre : List Str) : FSTree → List WalkedFile
  | .file _ _ => []
  | .dir _ entries =>
      ((filesOf entries).filter (fun fc => is_allowed_file fc.1)).map
        (fun fc => WalkedFile.mk pre fc.1 fc.2)
      ++ walkSubs pre entries

/-- Walk of the subdirectories of a listing, pruning ignored directory names. -/
def walkSubs (pre : List Str) : List FSTree → List WalkedFile
  | [] => []
  | t :: ts =>
      (match t with
       | .file _ _ => []
       | .dir d _ => if IGNORE_DIRS.contains d then [] else walkTree (pre ++ [d]) t)
      ++ walkSubs pre ts

end

/-- Model of `file_iter` (src/extract.py lines 102-111): the ordered sequence of
candidate paths (as components relative to the root). The root directory itself is
walked unconditionally; only subdirectory entries are checked against `IGNORE_DIRS`. -/
def file_iter (t : FSTree) : List (List Str) :=
  (walkTree [] t).map (fun w => w.relDirs ++ [w.name])

/-- Lexicographic string order by code point, modelling Python string comparison
used by `sorted`. -/
def strLe : Str → Str → Bool
  | [], _ => true
  | _ :: _, [] => false
  | a :: as, b :: bs => if a < b then true else if a == b then strLe as bs else false

/-- Indentation used by `tree_lines`: four spaces per level. -/
def indentN (n : ℕ) : Str := List.replicate (4 * n) ' '

/-- File lines `tree_lines` emits for one directory: names sorted (Python
`sorted(files)`), then filtered by `is_allowed_file` (the `continue`), each
prefixed with the depth indentation and a branch marker. -/
def dirFileLines (depth : ℕ) (entries : List FSTree) : List Str :=
  ((((filesOf entries).map Prod.fst).mergeSort strLe).filter is_allowed_file).map
    (fun f => indentN depth ++ cs "├── " ++ f)

mutual

/-- Model of `tree_lines` (src/extract.py lines 85-100) on one subtree at a given
depth: a directory line when the depth is positive, then the sorted allowed file
names, then the non-ignored subdirectories in listing order. -/
def treeLinesTree (depth : ℕ) : FSTree → List Str
  | .file _ _ => []
  | .dir n entries =>
      (if depth > 0 then [indentN (depth - 1) ++ cs "└── " ++ n] else [])
      ++ dirFileLines depth entries
      ++ treeLinesSubs depth entries

/-- The `tree_lines` output contributed by the subdirectories of a listing. -/
def treeLinesSubs (depth : ℕ) : List FSTree → List Str
  | [] => []
  | t :: ts =>
      (match t with
       | .file _ _ => []
       | .dir d _ => if IGNORE_DIRS.contains d then [] else treeLinesTree (depth + 1) t)
      ++ treeLinesSubs depth ts

end

/-- Model of `tree_lines` (src/extract.py lines 85-100) from the root (depth 0,
no directory line for the root itself). -/
def tree_lines (t : FSTree) : List Str := treeLinesTree 0 t

/-- Specification-side location predicate: `fileAt ds fname c entries` holds when a
file named `fname` with content `c` sits below the listing `entries` under the chain
of directory names `ds`. -/
def fileAt : List Str → Str → List ℕ → List FSTree → Prop
  | [], fname, c, entries => (fname, c) ∈ filesOf entries
  | d :: ds, fname, c, entries => ∃ es, (d, es) ∈ subdirsOf entries ∧ fileAt ds fname c es

theorem sizeOf_lt_of_mem_subdirsOf {d : Str} {es : List FSTree} :
    ∀ {entries : List FSTree}, (d, es) ∈ subdirsOf entries → sizeOf es < sizeOf entries := by
  intro entries
  induction entries with
  | nil => simp [subdirsOf]
  | cons t ts ih =>
    cases t with
    | file nm c =>
      intro h
      have := ih (by simpa [subdirsOf] using h)
      simp only [List.cons.sizeOf_spec]
      omega
    | dir d' es' =>
      intro h
      simp only [subdirsOf, List.mem_cons, Prod.mk.injEq] at h
      rcases h with ⟨hd, hes⟩ | h
      · subst hes
        simp only [List.cons.sizeOf_spec, FSTree.dir.sizeOf_spec]
        omega
      · have := ih h
        simp only [List.cons.sizeOf_spec]
        omega

theorem mem_walkSubs (pre : List Str) (entries : List FSTree) (w : WalkedFile) :
    w ∈ walkSubs pre entries ↔
      ∃ d es, (d, es) ∈ subdirsOf entries ∧ IGNORE_DIRS.contains d = false ∧
        w ∈ walkTree (pre ++ [d]) (.dir d es) := by
  induction entries with
  | nil => simp [walkSubs, subdirsOf]
  | cons t ts ih =>
    cases t with
    | file nm c =>
      rw [walkSubs]
      simpa [subdirsOf] using ih
    | dir d' es' =>
      rw [walkSubs]
      by_cases hd : IGNORE_DIRS.contains d'
      · simp only [hd, if_true, List.nil_append, ih, subdirsOf, List.mem_cons,
          Prod.mk.injEq]
        constructor
        · rintro ⟨d, es, hmem, hign, hin⟩
          exact ⟨d, es, Or.inr hmem, hign, hin⟩
        · rintro ⟨d, es, hmem, hign, hin⟩
          rcases hmem with ⟨rfl, rfl⟩ | hmem
          · rw [hd] at hign; cases hign
          · exact ⟨d, es, hmem, hign, hin⟩
      · have hd' : IGNORE_DIRS.contains d' = false := by
          exact Bool.not_eq_true _ ▸ (by simpa using hd)
        simp only [hd', if_false, List.mem_append, ih, subdirsOf, List.mem_cons,
          Prod.mk.injEq]
        constructor
        · rintro (hin | ⟨d, es, hmem, hign, hin⟩)
          · exact ⟨d', es', Or.inl ⟨rfl, rfl⟩, hd', hin⟩
          · exact ⟨d, es, Or.inr hmem, hign, hin⟩
        · rintro ⟨d, es, hmem, hign, hin⟩
          rcases hmem with ⟨rfl, rfl⟩ | hmem
          · exact Or.inl hin
          · exact Or.inr ⟨d, es, hmem, hign, hin⟩

theorem mem_walkTree_dir (entries : List FSTree) (n : Str) (pre : List Str) (w : WalkedFile) :
    w ∈ walkTree pre (.dir n entries) ↔
      ∃ ds, w.relDirs = pre ++ ds ∧ fileAt ds w.name w.content entries ∧
        is_allowed_file w.name = true ∧ ∀ d ∈ ds, IGNORE_DIRS.contains d = false := by
  rw [walkTree, List.mem_append, mem_walkSubs]
  constructor
  · rintro (hfile | ⟨d, es, hmem, hign, hsub⟩)
    · rw [List.mem_map] at hfile
      obtain ⟨fc, hfc, hw⟩ := hfile
      rw [List.mem_filter] at hfc
      refine ⟨[], ?_, ?_, ?_, ?_⟩ <;> subst hw <;> simp [fileAt, hfc.1, hfc.2]
    · rw [mem_walkTree_dir es d (pre ++ [d]) w] at hsub
      obtain ⟨ds', h1, h2, h3, h4⟩ := hsub
      refine ⟨d :: ds', by simpa using h1, ⟨es, hmem, h2⟩, h3, ?_⟩
      intro x hx
      rcases List.mem_cons.mp hx with rfl | hx
      · exact hign
      · exact h4 x hx
  · rintro ⟨ds, h1, h2, h3, h4⟩
    cases ds with
    | nil =>
      left
      rw [List.mem_map]
      refine ⟨(w.name, w.content), ?_, ?_⟩
      · rw [List.mem_filter]
        exact ⟨h2, h3⟩
      · cases w with
      | mk rd nm ct =>
        simp only [List.append_nil] at h1
        simp [h1]
    | cons d ds' =>
      right
      obtain ⟨es, hmem, hAt⟩ := h2
      refine ⟨d, es, hmem, h4 d (by simp), ?_⟩
      rw [mem_walkTree_dir es d (pre ++ [d]) w]
      exact ⟨ds', by simpa using h1, hAt, h3, fun x hx => h4 x (by simp [hx])⟩
termination_by sizeOf entries
decreasing_by all_goals exact sizeOf_lt_of_mem_subdirsOf hmem

theorem strLe_cons {x y : Char} {xs ys : Str} :
    strLe (x :: xs) (y :: ys) = true ↔ x < y ∨ (x = y ∧ strLe xs ys = true) := by
  rw [strLe]
  split_ifs with h1 h2
  · simp [h1]
  · simp only [beq_iff_eq] at h2
    simp [h1, h2]
  · simp only [beq_iff_eq] at h2
    simp [h1, h2]

theorem strLe_trans : ∀ a b c : Str, strLe a b = true → strLe b c = true → strLe a c = true
  | [], _, c, _, _ => by cases c <;> simp [strLe]
  | _ :: _, [], _, h, _ => by simp [strLe] at h
  | _ :: _, _ :: _, [], _, h => by simp [strLe] at h
  | x :: xs, y :: ys, z :: zs, h1, h2 => by
    rw [strLe_cons] at h1 h2 ⊢
    rcases h1 with h1 | ⟨rfl, h1⟩
    · rcases h2 with h2 | ⟨rfl, h2⟩
      · exact Or.inl (lt_trans h1 h2)
      · exact Or.inl h1
    · rcases h2 with h2 | ⟨rfl, h2⟩
      · exact Or.inl h2
      · exact Or.inr ⟨rfl, strLe_trans xs ys zs h1 h2⟩

theorem strLe_total : ∀ a b : Str, (strLe a b || strLe b a) = true
  | [], b => by cases b <;> simp [strLe]
  | a :: as, [] => by simp [strLe]
  | x :: xs, y :: ys => by
    rcases lt_trichotomy x y with h | h | h
    · simp [strLe_cons, h]
    · subst h
      have := strLe_total xs ys
      rcases Bool.or_eq_true_iff.mp this with h' | h' <;>
        simp [strLe_cons, h']
    · simp [strLe_cons, h]

/-- C6: for every directory tree, the walker's path set is exactly the allowed files
(special basename or allow-listed extension, case-insensitively) that do not lie
below any ignored-basename directory inside the tree; pruning means no file beneath
an ignored directory is ever visited. The root directory itself is walked without a
name check, so "under a directory" refers to the directory chain below the root. -/
theorem C6_walker_filter_correct (rootName : Str) (entries : List FSTree) (p : List Str) :
    p ∈ file_iter (.dir rootName entries) ↔
      ∃ ds fname c, p = ds ++ [fname] ∧ fileAt ds fname c entries ∧
        is_allowed_file fname = true ∧ ∀ d ∈ ds, IGNORE_DIRS.contains d = false := by
  unfold file_iter
  rw [List.mem_map]
  constructor
  · rintro ⟨w, hw, rfl⟩
    rw [mem_walkTree_dir] at hw
    obtain ⟨ds, h1, h2, h3, h4⟩ := hw
    exact ⟨ds, w.name, w.content, by rw [h1]; simp, h2, h3, h4⟩
  · rintro ⟨ds, fname, c, rfl, h2, h3, h4⟩
    refine ⟨WalkedFile.mk ds fname c, ?_, by simp⟩
    rw [mem_walkTree_dir]
    exact ⟨ds, by simp, h2, h3, h4⟩

theorem strLe_append_left : ∀ (x a b : Str), strLe (x ++ a) (x ++ b) = strLe a b
  | [], _, _ => rfl
  | c :: x, a, b => by
    rw [List.cons_append, List.cons_append, strLe, if_neg (lt_irrefl c), if_pos (by simp)]
    exact strLe_append_left x a b

/-- C3 (amended): the walker is a pure function of the snapshot, and within each
directory it visits files in listing order (the allowed files of a directory are
emitted, in listing order, before anything from its subdirectories); the
sorted-order guarantee holds only for the file lines of `tree_lines`, whose
per-directory file block is emitted in non-decreasing name order. -/
theorem C3_walk_order (n : Str) (entries : List FSTree) (depth : ℕ) :
    walkTree [] (.dir n entries) =
      ((filesOf entries).filter (fun fc => is_allowed_file fc.1)).map
        (fun fc => WalkedFile.mk [] fc.1 fc.2) ++ walkSubs [] entries
    ∧ List.Pairwise (fun a b => strLe a b = true) (dirFileLines depth entries) := by
  constructor
  · rw [walkTree]
  · unfold dirFileLines
    rw [List.pairwise_map]
    have hs : List.Pairwise (fun a b => strLe a b = true)
        ((((filesOf entries).map Prod.fst).mergeSort strLe).filter is_allowed_file) :=
      List.Pairwise.filter _ (List.sorted_mergeSort strLe_trans strLe_total _)
    refine hs.imp ?_
    intro a b hab
    rw [strLe_append_left]
    exact hab

/-- C3 counterexample: a snapshot whose listing order is not sorted. Over the
listing `[b.py, a.py]` the walker emits `b.py` before `a.py`: the output order is
the listing order, not the sorted-listing order claimed by the specification
(`sorted` is applied in `tree_lines` only, not in `file_iter`). -/
theorem C3_file_iter_unsorted_counterexample :
    file_iter (.dir (cs "r") [.file (cs "b.py") [], .file (cs "a.py") []]) =
      [[cs "b.py"], [cs "a.py"]] ∧
    strLe (cs "b.py") (cs "a.py") = false ∧
    [[cs "b.py"], [cs "a.py"]] ≠ [[cs "a.py"], [cs "b.py"]] := by
  refine ⟨by decide, by decide, by decide⟩

/-- Default maximum read size, `MAX_BYTES` in src/extract.py (2 MiB); overridable
through the environment, so the models below take it as a parameter. -/
def MAX_BYTES_DEFAULT : ℕ := 2 * 1024 * 1024

/-- UTF-8 continuation byte test. -/
def isCont (b : ℕ) : Bool := 0x80 ≤ b && b ≤ 0xBF

/-- Valid second-byte range for a three-byte UTF-8 lead (excludes overlong forms
and surrogates, as Python's strict utf-8 codec does). -/
def cont3ok (b b2 : ℕ) : Bool :=
  if b = 0xE0 then 0xA0 ≤ b2 && b2 ≤ 0xBF
  else if b = 0xED then 0x80 ≤ b2 && b2 ≤ 0x9F
  else isCont b2

/-- Valid second-byte range for a four-byte UTF-8 lead (excludes overlong forms and
code points above 0x10FFFF). -/
def cont4ok (b b2 : ℕ) : Bool :=
  if b = 0xF0 then 0x90 ≤ b2 && b2 ≤ 0xBF
  else if b = 0xF4 then 0x80 ≤ b2 && b2 ≤ 0x8F
  else isCont b2

/-- Decode one UTF-8 scalar from the front of a byte list: the code point and the
number of bytes consumed, or none when the front is not one complete valid sequence. -/
def utf8Step : List ℕ → Option (ℕ × ℕ)
  | [] => none
  | b :: bs =>
    if b ≤ 0x7F then some (b, 1)
    else if 0xC2 ≤ b ∧ b ≤ 0xDF then
      match bs with
      | b2 :: _ => if isCont b2 then some ((b - 0xC0) * 0x40 + (b2 - 0x80), 2) else none
      | [] => none
    else if 0xE0 ≤ b ∧ b ≤ 0xEF then
      match bs with
      | b2 :: b3 :: _ =>
        if cont3ok b b2 && isCont b3 then
          some ((b - 0xE0) * 0x1000 + (b2 - 0x80) * 0x40 + (b3 - 0x80), 3)
        else none
      | _ => none
    else if 0xF0 ≤ b ∧ b ≤ 0xF4 then
      match bs with
      | b2 :: b3 :: b4 :: _ =>
        if cont4ok b b2 && isCont b3 && isCont b4 then
          some ((b - 0xF0) * 0x40000 + (b2 - 0x80) * 0x1000 + (b3 - 0x80) * 0x40 + (b4 - 0x80), 4)
        else none
      | _ => none
    else none

/-- Number of bytes skipped by the lenient utf-8 decoder when the front is invalid:
the maximal subpart of the ill-formed sequence (CPython error-handler granularity),
always at least one byte. -/
def utf8FailSkip : List ℕ → ℕ
  | [] => 1
  | b :: bs =>
    if 0xE0 ≤ b ∧ b ≤ 0xEF then
      match bs with
      | b2 :: _ => if cont3ok b b2 then 2 else 1
      | [] => 1
    else if 0xF0 ≤ b ∧ b ≤ 0xF4 then
      match bs with
      | b2 :: b3 :: _ => if cont4ok b b2 then (if isCont b3 then 3 else 2) else 1
      | [b2] => if cont4ok b b2 then 2 else 1
      | [] => 1
    else 1

/-- Lenient UTF-8 decoding, modelling `bytes.decode("utf-8", errors="ignore")`:
invalid subsequences are dropped. Fuel is instantiated with the input length; every
step consumes at least one byte, so the fuel never runs out early. -/
def utf8DecodeIgnoreAux : ℕ → List ℕ → Str
  | 0, _ => []
  | _ + 1, [] => []
  | fuel + 1, b :: bs =>
    match utf8Step (b :: bs) with
    | some (cp, len) => Char.ofNat cp :: utf8DecodeIgnoreAux fuel (List.drop (len - 1) bs)
    | none => utf8DecodeIgnoreAux fuel (List.drop (utf8FailSkip (b :: bs) - 1) bs)

/-- Lenient UTF-8 decoding of a byte list. -/
def utf8DecodeIgnore (bs : List ℕ) : Str := utf8DecodeIgnoreAux bs.length bs

/-- Strict UTF-8 decoding, modelling `bytes.decode("utf-8", errors="strict")`:
any invalid sequence fails the whole decode. -/
def utf8DecodeStrictAux : ℕ → List ℕ → Option Str
  | _, [] => some []
  | 0, _ :: _ => none
  | fuel + 1, b :: bs =>
    match utf8Step (b :: bs) with
    | some (cp, len) =>
      match utf8DecodeStrictAux fuel (List.drop (len - 1) bs) with
      | some rest => some (Char.ofNat cp :: rest)
      | none => none
    | none => none

/-- Strict UTF-8 decoding of a byte list. -/
def utf8DecodeStrict (bs : List ℕ) : Option Str := utf8DecodeStrictAux bs.length bs

/-- Pair up bytes into 16-bit units, little-endian or big-endian; odd-length input
is a decode error. -/
def utf16Units (le : Bool) : List ℕ → Option (List ℕ)
  | [] => some []
  | [_] => none
  | b1 :: b2 :: bs =>
    let u := if le then b1 + 256 * b2 else 256 * b1 + b2
    match utf16Units le bs with
    | some us => some (u :: us)
    | none => none

/-- Combine UTF-16 code units into characters; unpaired surrogates are errors. -/
def utf16Chars : ℕ → List ℕ → Option Str
  | _, [] => some []
  | 0, _ :: _ => none
  | fuel + 1, u :: us =>
    if u < 0xD800 ∨ 0xE000 ≤ u then
      match utf16Chars fuel us with
      | some rest => some (Char.ofNat u :: rest)
      | none => none
    else if u ≤ 0xDBFF then
      match us with
      | u2 :: us2 =>
        if 0xDC00 ≤ u2 ∧ u2 ≤ 0xDFFF then
          match utf16Chars fuel us2 with
          | some rest =>
            some (Char.ofNat (0x10000 + (u - 0xD800) * 0x400 + (u2 - 0xDC00)) :: rest)
          | none => none
        else none
      | [] => none
    else none

/-- Model of `bytes.decode("utf-16", errors="strict")`: an optional byte-order mark
selects the byte order, defaulting to little-endian (CPython on a little-endian
host) when absent. -/
def utf16DecodeStrict (bs : List ℕ) : Option Str :=
  match bs with
  | 0xFF :: 0xFE :: rest => (utf16Units true rest).bind (fun us => utf16Chars us.length us)
  | 0xFE :: 0xFF :: rest => (utf16Units false rest).bind (fun us => utf16Chars us.length us)
  | _ => (utf16Units true bs).bind (fun us => utf16Chars us.length us)

/-- Model of `bytes.decode("latin-1")`: each byte is its own code point; total, so
the strict latin-1 attempt in `read_text_file` always succeeds. -/
def latin1Decode (bs : List ℕ) : Str := bs.map Char.ofNat

/-- Universal-newline translation performed by Python text-mode reads: CRLF and
lone CR both become LF. -/
def translateNewlines : Str → Str
  | [] => []
  | '\r' :: '\n' :: rest => '\n' :: translateNewlines rest
  | '\r' :: rest => '\n' :: translateNewlines rest
  | c :: rest => c :: translateNewlines rest

/-- Model of `read_text_file` (src/extract.py lines 64-77): a file larger than
`maxBytes` is read in binary mode only up to `maxBytes` bytes and decoded leniently
(no newline translation); otherwise the encodings utf-8, utf-16, latin-1 are tried
strictly in order on the whole file through text-mode reads (universal newlines),
and a final lenient utf-8 fallback would guarantee a result (unreachable in the
model because latin-1 decoding is total). -/
def read_text_file (maxBytes : ℕ) (data : List ℕ) : Str :=
  if data.length > maxBytes then utf8DecodeIgnore (data.take maxBytes)
  else
    match utf8DecodeStrict data with
    | some s => translateNewlines s
    | none =>
      match utf16DecodeStrict data with
      | some s => translateNewlines s
      | none => translateNewlines (latin1Decode data)

/-- Model of `build_text_with_context` (src/extract.py lines 123-131): the record
text is a four-line provenance header, a separator, then the decoded content. -/
def build_text_with_context (root rel abs_path lang content : Str) : Str :=
  cs "PATH: " ++ rel ++ cs "\n" ++ cs "ABS_PATH: " ++ abs_path ++ cs "\n" ++
    cs "ROOT: " ++ root ++ cs "\n" ++ cs "LANG: " ++ lang ++ cs "\n" ++ cs "---\n" ++ content

theorem utf8DecodeIgnoreAux_length_le : ∀ (fuel : ℕ) (bs : List ℕ),
    (utf8DecodeIgnoreAux fuel bs).length ≤ fuel := by
  intro fuel
  induction fuel with
  | zero => intro bs; simp [utf8DecodeIgnoreAux]
  | succ f ih =>
    intro bs
    cases bs with
    | nil => simp [utf8DecodeIgnoreAux]
    | cons b rest =>
      rw [utf8DecodeIgnoreAux]
      split
      · simp only [List.length_cons]
        exact Nat.succ_le_succ (ih _)
      · exact le_trans (ih _) (Nat.le_succ f)

theorem utf8DecodeIgnore_length_le (bs : List ℕ) : (utf8DecodeIgnore bs).length ≤ bs.length :=
  utf8DecodeIgnoreAux_length_le bs.length bs

/-- Reduction modulo 2^32, for 32-bit SHA-256 arithmetic. -/
def w32 (n : ℕ) : ℕ := n % 4294967296

/-- Right rotation of a 32-bit word. -/
def rotr32 (n x : ℕ) : ℕ := w32 ((x >>> n) ||| (x <<< (32 - n)))

/-- SHA-256 choice function. -/
def shaCh (x y z : ℕ) : ℕ := (x &&& y) ^^^ ((x ^^^ 0xFFFFFFFF) &&& z)

/-- SHA-256 majority function. -/
def shaMaj (x y z : ℕ) : ℕ := (x &&& y) ^^^ (x &&& z) ^^^ (y &&& z)

/-- SHA-256 big sigma 0. -/
def shaBS0 (x : ℕ) : ℕ := rotr32 2 x ^^^ rotr32 13 x ^^^ rotr32 22 x

/-- SHA-256 big sigma 1. -/
def shaBS1 (x : ℕ) : ℕ := rotr32 6 x ^^^ rotr32 11 x ^^^ rotr32 25 x

/-- SHA-256 small sigma 0. -/
def shaS0 (x : ℕ) : ℕ := rotr32 7 x ^^^ rotr32 18 x ^^^ (x >>> 3)

/-- SHA-256 small sigma 1. -/
def shaS1 (x : ℕ) : ℕ := rotr32 17 x ^^^ rotr32 19 x ^^^ (x >>> 10)

/-- Big-endian byte expansion of a number to a fixed width. -/
def beBytes : ℕ → ℕ → List ℕ
  | 0, _ => []
  | k + 1, n => beBytes k (n / 256) ++ [n % 256]

/-- SHA-256 message padding: a 0x80 byte, zeros to 56 mod 64, and the bit length
as eight big-endian bytes. -/
def sha256Pad (msg : List ℕ) : List ℕ :=
  msg ++ [0x80] ++ List.replicate ((120 - ((msg.length + 1) % 64)) % 64) 0
    ++ beBytes 8 (8 * msg.length)

/-- Big-endian 32-bit words from a byte list. -/
def beWords : List ℕ → List ℕ
  | b1 :: b2 :: b3 :: b4 :: rest =>
      (b1 * 0x1000000 + b2 * 0x10000 + b3 * 0x100 + b4) :: beWords rest
  | _ => []

/-- Append the next word of the SHA-256 message schedule. -/
def extendStep (ws : List ℕ) : List ℕ :=
  let n := ws.length
  ws ++ [w32 (shaS1 (ws.getD (n - 2) 0) + ws.getD (n - 7) 0 +
              shaS0 (ws.getD (n - 15) 0) + ws.getD (n - 16) 0)]

/-- Iterate the message-schedule extension. -/
def extendTo64 : ℕ → List ℕ → List ℕ
  | 0, ws => ws
  | k + 1, ws => extendTo64 k (extendStep ws)

/-- SHA-256 round constants. -/
def shaK : List ℕ :=
  [0x428a2f98, 0x71374491, 0xb5c0fbcf, 0xe9b5dba5, 0x3956c25b, 0x59f111f1, 0x923f82a4,
   0xab1c5ed5] ++
  [0xd807aa98, 0x12835b01, 0x243185be, 0x550c7dc3, 0x72be5d74, 0x80deb1fe, 0x9bdc06a7,
   0xc19bf174] ++
  [0xe49b69c1, 0xefbe4786, 0x0fc19dc6, 0x240ca1cc, 0x2de92c6f, 0x4a7484aa, 0x5cb0a9dc,
   0x76f988da] ++
  [0x983e5152, 0xa831c66d, 0xb00327c8, 0xbf597fc7, 0xc6e00bf3, 0xd5a79147, 0x06ca6351,
   0x14292967] ++
  [0x27b70a85, 0x2e1b2138, 0x4d2c6dfc, 0x53380d13, 0x650a7354, 0x766a0abb, 0x81c2c92e,
   0x92722c85] ++
  [0xa2bfe8a1, 0xa81a664b, 0xc24b8b70, 0xc76c51a3, 0xd192e819, 0xd6990624, 0xf40e3585,
   0x106aa070] ++
  [0x19a4c116, 0x1e376c08, 0x2748774c, 0x34b0bcb5, 0x391c0cb3, 0x4ed8aa4a, 0x5b9cca4f,
   0x682e6ff3] ++
  [0x748f82ee, 0x78a5636f, 0x84c87814, 0x8cc70208, 0x90befffa, 0xa4506ceb, 0xbef9a3f7,
   0xc67178f2]

/-- SHA-256 initial hash state. -/
def shaH0 : List ℕ :=
  [0x6a09e667, 0xbb67ae85, 0x3c6ef372, 0xa54ff53a, 0x510e527f, 0x9b05688c, 0x1f83d9ab,
   0x5be0cd19]

/-- One SHA-256 compression round on the eight-word working state. -/
def compressStep (st : List ℕ) (kw : ℕ × ℕ) : List ℕ :=
  match st with
  | [a, b, c, d, e, f, g, h] =>
    let t1 := w32 (h + shaBS1 e + shaCh e f g + kw.1 + kw.2)
    let t2 := w32 (shaBS0 a + shaMaj a b c)
    [w32 (t1 + t2), a, b, c, w32 (d + t1), e, f, g]
  | other => other

/-- Process one 64-byte block into the running hash state. -/
def processBlock (h : List ℕ) (block : List ℕ) : List ℕ :=
  let ws := extendTo64 48 (beWords block)
  let st := (shaK.zip ws).foldl compressStep h
  (h.zip st).map (fun p => w32 (p.1 + p.2))

/-- Split a byte list into 64-byte chunks (fuel is the list length). -/
def chunks64Aux : ℕ → List ℕ → List (List ℕ)
  | 0, _ => []
  | _ + 1, [] => []
  | fuel + 1, bs => bs.take 64 :: chunks64Aux fuel (bs.drop 64)

/-- SHA-256 of a byte list, as the eight final 32-bit state words. -/
def sha256Bytes (msg : List ℕ) : List ℕ :=
  (chunks64Aux (sha256Pad msg).length (sha256Pad msg)).foldl processBlock shaH0

/-- Lower-case hex digit. -/
def hexDigit (n : ℕ) : Char := if n < 10 then Char.ofNat (48 + n) else Char.ofNat (87 + n)

/-- Lower-case hex rendering of one 32-bit word, eight digits. -/
def hex8 (n : ℕ) : Str := (beBytes 4 n).flatMap (fun b => [hexDigit (b / 16), hexDigit (b % 16)])

/-- Hexadecimal digest string of a hash state, as `hashlib`'s `hexdigest`. -/
def hexdigest (hs : List ℕ) : Str := hs.flatMap hex8

/-- UTF-8 encoding of one character. -/
def utf8EncodeChar (c : Char) : List ℕ :=
  let n := c.toNat
  if n ≤ 0x7F then [n]
  else if n ≤ 0x7FF then [0xC0 + n / 0x40, 0x80 + n % 0x40]
  else if n ≤ 0xFFFF then [0xE0 + n / 0x1000, 0x80 + (n / 0x40) % 0x40, 0x80 + n % 0x40]
  else [0xF0 + n / 0x40000, 0x80 + (n / 0x1000) % 0x40, 0x80 + (n / 0x40) % 0x40,
        0x80 + n % 0x40]

/-- Model of `s.encode("utf-8", errors="ignore")`: every Lean character is a valid
scalar value, so nothing is ever dropped (Python would drop only lone surrogates). -/
def utf8Encode (s : Str) : List ℕ := s.flatMap utf8EncodeChar

/-- Model of `sha256_text` (src/extract.py lines 113-114): the SHA-256 hex digest of
the utf-8 encoding of the decoded text. -/
def sha256_text (s : Str) : Str := hexdigest (sha256Bytes (utf8Encode s))

/-- One corpus record, with the field names of the dict built in `main`
(src/extract.py lines 163-171). -/
structure CorpusRecord where
  path : Str
  abs_path : Str
  root : Str
  lang : Str
  size : ℕ
  hash : Str
  text : Str
deriving DecidableEq

/-- POSIX path join of components. -/
def joinPath (comps : List Str) : Str := (cs "/").intercalate comps

/-- Model of the per-file record construction in `main` (src/extract.py lines
154-173): relative path, absolute path under the root, language, byte size, the
content hash of the decoded text, and the header-prefixed text. -/
def buildRecord (maxBytes : ℕ) (root : Str) (w : WalkedFile) : CorpusRecord :=
  let rel := joinPath (w.relDirs ++ [w.name])
  let abs_path := root ++ cs "/" ++ rel
  let txt := read_text_file maxBytes w.content
  let lang := detect_lang w.name
  ⟨rel, abs_path, root, lang, w.content.length, sha256_text txt,
   build_text_with_context root rel abs_path lang txt⟩

/-- C2 counterexample: with the configured maximum set to 2 bytes, a 3-byte file
"AAA" yields a record whose `text` field is 51 characters long, far above the
maximum: the byte cap applies to the decoded content before header prefixing,
while the record's `text` field additionally carries the provenance header, so its
length is not bounded by the configured maximum. -/
theorem C2_text_length_counterexample :
    (buildRecord 2 (cs "r") (WalkedFile.mk [] (cs "a.py") [65, 65, 65])).size > 2 ∧
    (buildRecord 2 (cs "r") (WalkedFile.mk [] (cs "a.py") [65, 65, 65])).text.length = 51 ∧
    ¬ (buildRecord 2 (cs "r") (WalkedFile.mk [] (cs "a.py") [65, 65, 65])).text.length ≤ 2 := by
  refine ⟨by decide, by decide, by decide⟩

/-- C2 (amended): for every file whose size exceeds the configured maximum, only
the prefix of `maxBytes` bytes is read and decoded leniently; the decoded content
(before header prefixing) has length at most `maxBytes`, and the record's `text`
field is exactly the provenance header followed by that bounded content — so the
trailing bytes of the file never reach the record. -/
theorem C2_size_capped_read (maxBytes : ℕ) (root : Str) (w : WalkedFile)
    (h : w.content.length > maxBytes) :
    read_text_file maxBytes w.content = utf8DecodeIgnore (w.content.take maxBytes) ∧
    (read_text_file maxBytes w.content).length ≤ maxBytes ∧
    (buildRecord maxBytes root w).text =
      build_text_with_context root (joinPath (w.relDirs ++ [w.name]))
        (root ++ cs "/" ++ joinPath (w.relDirs ++ [w.name])) (detect_lang w.name)
        (read_text_file maxBytes w.content) := by
  have h1 : read_text_file maxBytes w.content = utf8DecodeIgnore (w.content.take maxBytes) := by
    rw [read_text_file, if_pos h]
  refine ⟨h1, ?_, rfl⟩
  rw [h1]
  calc (utf8DecodeIgnore (w.content.take maxBytes)).length
      ≤ (w.content.take maxBytes).length := utf8DecodeIgnore_length_le _
    _ ≤ maxBytes := by simp [List.length_take]

/-- Witness for C2 (amended) at a concrete oversized file. -/
theorem C2_size_capped_read_witness :
    ((WalkedFile.mk [] (cs "a.py") [65, 65, 65]).content.length > 2) ∧
    (read_text_file 2 (WalkedFile.mk [] (cs "a.py") [65, 65, 65]).content =
       utf8DecodeIgnore ((WalkedFile.mk [] (cs "a.py") [65, 65, 65]).content.take 2) ∧
     (read_text_file 2 (WalkedFile.mk [] (cs "a.py") [65, 65, 65]).content).length ≤ 2 ∧
     (buildRecord 2 (cs "r") (WalkedFile.mk [] (cs "a.py") [65, 65, 65])).text =
       build_text_with_context (cs "r")
         (joinPath ((WalkedFile.mk [] (cs "a.py") [65, 65, 65]).relDirs ++
            [(WalkedFile.mk [] (cs "a.py") [65, 65, 65]).name]))
         (cs "r" ++ cs "/" ++ joinPath ((WalkedFile.mk [] (cs "a.py") [65, 65, 65]).relDirs ++
            [(WalkedFile.mk [] (cs "a.py") [65, 65, 65]).name]))
         (detect_lang (WalkedFile.mk [] (cs "a.py") [65, 65, 65]).name)
         (read_text_file 2 (WalkedFile.mk [] (cs "a.py") [65, 65, 65]).content)) :=
  ⟨by decide, C2_size_capped_read 2 (cs "r") (WalkedFile.mk [] (cs "a.py") [65, 65, 65])
    (by decide)⟩

/-- C7: the content hash is computed from the decoded text, prior to header
prefixing: a record's hash field is `sha256_text` of the decoded content (not of
the header-prefixed `text` field, which is the header plus that same content, and
not of the raw bytes, which enter only through decoding), and any two records whose
decoded content is identical carry identical hashes even when produced from
different raw bytes, paths, and roots. Determinism is immediate since the model is
a pure function. -/
theorem C7_content_hash_pure (maxBytes : ℕ) (root root' : Str) (w w' : WalkedFile)
    (hsame : read_text_file maxBytes w.content = read_text_file maxBytes w'.content) :
    (buildRecord maxBytes root w).hash = sha256_text (read_text_file maxBytes w.content) ∧
    (buildRecord maxBytes root w).text =
      build_text_with_context root (joinPath (w.relDirs ++ [w.name]))
        (root ++ cs "/" ++ joinPath (w.relDirs ++ [w.name])) (detect_lang w.name)
        (read_text_file maxBytes w.content) ∧
    (buildRecord maxBytes root w).hash = (buildRecord maxBytes root' w').hash := by
  refine ⟨rfl, rfl, ?_⟩
  show sha256_text _ = sha256_text _
  rw [hsame]

/-- Witness for C7 at two concrete files with different raw bytes (utf-8 "A" and
utf-16 "A" with a byte-order mark) whose decoded content coincides. -/
theorem C7_content_hash_pure_witness :
    (read_text_file 100 (WalkedFile.mk [] (cs "a.py") [65]).content =
       read_text_file 100 (WalkedFile.mk [] (cs "b.txt") [255, 254, 65, 0]).content) ∧
    ((buildRecord 100 (cs "r") (WalkedFile.mk [] (cs "a.py") [65])).hash =
       sha256_text (read_text_file 100 (WalkedFile.mk [] (cs "a.py") [65]).content) ∧
     (buildRecord 100 (cs "r") (WalkedFile.mk [] (cs "a.py") [65])).text =
       build_text_with_context (cs "r")
         (joinPath ((WalkedFile.mk [] (cs "a.py") [65]).relDirs ++
            [(WalkedFile.mk [] (cs "a.py") [65]).name]))
         (cs "r" ++ cs "/" ++ joinPath ((WalkedFile.mk [] (cs "a.py") [65]).relDirs ++
            [(WalkedFile.mk [] (cs "a.py") [65]).name]))
         (detect_lang (WalkedFile.mk [] (cs "a.py") [65]).name)
         (read_text_file 100 (WalkedFile.mk [] (cs "a.py") [65]).content) ∧
     (buildRecord 100 (cs "r") (WalkedFile.mk [] (cs "a.py") [65])).hash =
       (buildRecord 100 (cs "r2") (WalkedFile.mk [] (cs "b.txt") [255, 254, 65, 0])).hash) :=
  ⟨by decide, C7_content_hash_pure 100 (cs "r") (cs "r2") (WalkedFile.mk [] (cs "a.py") [65])
    (WalkedFile.mk [] (cs "b.txt") [255, 254, 65, 0]) (by decide)⟩

/-- JSON values as they occur in the corpus file: objects with string and integer
fields (the only shapes `main` serializes; arrays, floats, booleans and null never
occur in the corpus format). -/
inductive Json where
  | str (s : Str) : Json
  | num (n : ℤ) : Json
  | obj (fields : List (Str × Json)) : Json

/-- Four-digit hexadecimal rendering used by JSON \u escapes. -/
def hex4 (n : ℕ) : Str :=
  [hexDigit (n / 4096 % 16), hexDigit (n / 256 % 16), hexDigit (n / 16 % 16), hexDigit (n % 16)]

/-- Escaping of one character inside a JSON string, as `json.dumps` with
`ensure_ascii=False`: quote, backslash and control characters are escaped (the
common ones by short escapes, the rest as \u00XX), everything else is kept raw. -/
def escChar (c : Char) : Str :=
  if c = '"' then ['\\', '"']
  else if c = '\\' then ['\\', '\\']
  else if c = '\n' then ['\\', 'n']
  else if c = '\t' then ['\\', 't']
  else if c = '\r' then ['\\', 'r']
  else if c = Char.ofNat 8 then ['\\', 'b']
  else if c = Char.ofNat 12 then ['\\', 'f']
  else if c.toNat < 0x20 then '\\' :: 'u' :: hex4 c.toNat
  else [c]

/-- JSON string-content escaping. -/
def escape (s : Str) : Str := s.flatMap escChar

/-- Decimal digits of a natural number. -/
def natDigits (n : ℕ) : Str :=
  if h : n < 10 then [Char.ofNat (48 + n)]
  else natDigits (n / 10) ++ [Char.ofNat (48 + n % 10)]
termination_by n
decreasing_by exact Nat.div_lt_self (by omega) (by omega)

/-- Decimal rendering of an integer, as `json.dumps` renders Python ints. -/
def intDigits (n : ℤ) : Str :=
  if n < 0 then '-' :: natDigits n.natAbs else natDigits n.toNat

mutual

/-- Model of `json.dumps` with `ensure_ascii=False` and default separators on the
value shapes of the corpus format. -/
def dumpJson : Json → Str
  | .str s => '"' :: escape s ++ ['"']
  | .num n => intDigits n
  | .obj fs => '\x7b' :: dumpFields fs ++ ['\x7d']

/-- Serialization of object fields in insertion order with `", "` and `": "`
separators (the `json.dumps` defaults). -/
def dumpFields : List (Str × Json) → Str
  | [] => []
  | [(k, v)] => '"' :: escape k ++ '"' :: ':' :: ' ' :: dumpJson v
  | (k, v) :: rest =>
      '"' :: escape k ++ '"' :: ':' :: ' ' :: dumpJson v ++ ',' :: ' ' :: dumpFields rest

end

/-- JSON whitespace. -/
def jsonWs (c : Char) : Bool := c == ' ' || c == '\t' || c == '\n' || c == '\r'

/-- Skip JSON whitespace. -/
def skipWs (s : Str) : Str := s.dropWhile jsonWs

/-- Hexadecimal digit value. -/
def hexVal (c : Char) : Option ℕ :=
  if '0' ≤ c ∧ c ≤ '9' then some (c.toNat - 48)
  else if 'a' ≤ c ∧ c ≤ 'f' then some (c.toNat - 87)
  else if 'A' ≤ c ∧ c ≤ 'F' then some (c.toNat - 55)
  else none

/-- Decimal digit test. -/
def isDigitC (c : Char) : Bool := '0' ≤ c && c ≤ '9'

/-- Parser for the body of a JSON string after the opening quote, returning the
decoded content and the remaining input past the closing quote. A \u escape naming
a lone surrogate is rejected (such a code point is not representable in the model;
`json.dumps` never emits one for valid text). Raw control characters are rejected,
as `json.loads` does in strict mode. -/
def parseStrBody : ℕ → Str → Option (Str × Str)
  | 0, _ => none
  | _ + 1, [] => none
  | fuel + 1, c :: rest =>
    if c = '"' then some ([], rest)
    else if c = '\\' then
      match rest with
      | [] => none
      | e :: rest2 =>
        if e = '"' ∨ e = '\\' ∨ e = '/' then
          (parseStrBody fuel rest2).map (fun p => (e :: p.1, p.2))
        else if e = 'n' then (parseStrBody fuel rest2).map (fun p => ('\n' :: p.1, p.2))
        else if e = 't' then (parseStrBody fuel rest2).map (fun p => ('\t' :: p.1, p.2))
        else if e = 'r' then (parseStrBody fuel rest2).map (fun p => ('\r' :: p.1, p.2))
        else if e = 'b' then
          (parseStrBody fuel rest2).map (fun p => (Char.ofNat 8 :: p.1, p.2))
        else if e = 'f' then
          (parseStrBody fuel rest2).map (fun p => (Char.ofNat 12 :: p.1, p.2))
        else if e = 'u' then
          match rest2 with
          | h1 :: h2 :: h3 :: h4 :: rest3 =>
            match hexVal h1, hexVal h2, hexVal h3, hexVal h4 with
            | some v1, some v2, some v3, some v4 =>
              let n := v1 * 4096 + v2 * 256 + v3 * 16 + v4
              if 0xD800 ≤ n ∧ n < 0xE000 then none
              else (parseStrBody fuel rest3).map (fun p => (Char.ofNat n :: p.1, p.2))
            | _, _, _, _ => none
          | _ => none
        else none
    else if c.toNat < 0x20 then none
    else (parseStrBody fuel rest).map (fun p => (c :: p.1, p.2))

/-- Numeric value of a digit string. -/
def digitsVal (ds : Str) : ℕ := ds.foldl (fun acc c => acc * 10 + (c.toNat - 48)) 0

/-- Parser for the integer numbers occurring in the corpus format (`json.loads`
restricted to the integer grammar `main` emits). -/
def parseNum (s : Str) : Option (ℤ × Str) :=
  match s with
  | '-' :: rest =>
    let ds := rest.takeWhile isDigitC
    if ds.isEmpty then none else some (-(digitsVal ds : ℤ), rest.dropWhile isDigitC)
  | _ =>
    let ds := s.takeWhile isDigitC
    if ds.isEmpty then none else some ((digitsVal ds : ℤ), s.dropWhile isDigitC)

mutual

/-- Recursive-descent model of `json.loads` on the corpus value shapes: a value is
a string, an object, or an integer; fuel decreases at each nesting level. -/
def parseJson : ℕ → Str → Option (Json × Str)
  | 0, _ => none
  | fuel + 1, s => parseValue fuel (skipWs s)
termination_by fuel _ => (fuel, 0)

/-- Dispatch on the first character of a value. -/
def parseValue (fuel : ℕ) : Str → Option (Json × Str)
  | [] => none
  | c :: rest =>
    if c = '"' then (parseStrBody (rest.length + 1) rest).map (fun p => (Json.str p.1, p.2))
    else if c = '\x7b' then parseObjBody fuel (skipWs rest)
    else (parseNum (c :: rest)).map (fun p => (Json.num p.1, p.2))
termination_by s => (fuel, 4)

/-- Interior of an object after the opening brace: empty object or a field list. -/
def parseObjBody (fuel : ℕ) : Str → Option (Json × Str)
  | [] => none
  | c :: rest =>
    if c = '\x7d' then some (Json.obj [], rest)
    else (parseFields fuel (c :: rest)).map (fun p => (Json.obj p.1, p.2))
termination_by s => (fuel, 3)

/-- Parser for a nonempty field list, positioned at the first key; consumes the
closing brace. -/
def parseFields : ℕ → Str → Option (List (Str × Json) × Str)
  | 0, _ => none
  | fuel + 1, s => parseFieldKey fuel (skipWs s)
termination_by fuel _ => (fuel, 1)

/-- One field: a string key, then a colon and a value. -/
def parseFieldKey (fuel : ℕ) : Str → Option (List (Str × Json) × Str)
  | [] => none
  | c :: rest =>
    if c = '"' then
      (parseStrBody (rest.length + 1) rest).bind
        (fun p => parseFieldColon fuel p.1 (skipWs p.2))
    else none
termination_by s => (fuel, 4)

/-- The colon and value of one field. -/
def parseFieldColon (fuel : ℕ) (k : Str) : Str → Option (List (Str × Json) × Str)
  | [] => none
  | c :: rest =>
    if c = ':' then
      (parseJson fuel rest).bind (fun p => parseFieldNext fuel k p.1 (skipWs p.2))
    else none
termination_by s => (fuel, 3)

/-- After one field: a comma continues the list, a closing brace ends it. -/
def parseFieldNext (fuel : ℕ) (k : Str) (v : Json) : Str → Option (List (Str × Json) × Str)
  | [] => none
  | c :: rest =>
    if c = ',' then (parseFields fuel rest).map (fun p => ((k, v) :: p.1, p.2))
    else if c = '\x7d' then some ([(k, v)], rest)
    else none
termination_by s => (fuel, 2)

end

/-- Model of `json.loads` on one line: parse a value and require only whitespace to
remain. -/
def loads (s : Str) : Option Json :=
  match parseJson (s.length + 1) s with
  | some (v, rest) => if (skipWs rest).isEmpty then some v else none
  | none => none

/-- Dictionary field access, as `e["text"]` after `json.loads` (the corpus objects
never repeat a key, so first-match lookup agrees with Python's dict). -/
def getField (j : Json) (k : Str) : Option Json :=
  match j with
  | .obj fs => (fs.find? (fun kv => kv.1 == k)).map Prod.snd
  | _ => none

theorem hexVal_hexDigit (d : ℕ) (h : d < 16) : hexVal (hexDigit d) = some d := by
  interval_cases d <;> decide

theorem hexDigit_not_ws_digit (d : ℕ) (h : d < 16) :
    hexDigit d ≠ '\n' ∧ hexDigit d ≠ '\r' := by
  interval_cases d <;> exact ⟨by decide, by decide⟩

theorem natDigits_all_digits : ∀ n : ℕ, ∀ c ∈ natDigits n, isDigitC c = true := by
  intro n
  induction n using Nat.strong_induction_on with
  | _ n ih =>
    intro c hc
    rw [natDigits] at hc
    split at hc
    · rename_i h
      rcases List.mem_singleton.mp hc with rfl
      interval_cases n <;> decide
    · rename_i h
      rcases List.mem_append.mp hc with h1 | h1
      · exact ih (n / 10) (Nat.div_lt_self (by omega) (by omega)) c h1
      · rcases List.mem_singleton.mp h1 with rfl
        have : n % 10 < 10 := Nat.mod_lt _ (by omega)
        interval_cases h2 : n % 10 <;> simp_all <;> decide

theorem natDigits_ne_nil (n : ℕ) : natDigits n ≠ [] := by
  rw [natDigits]
  split
  · simp
  · simp

theorem digitsVal_append_one (ds : Str) (c : Char) :
    digitsVal (ds ++ [c]) = digitsVal ds * 10 + (c.toNat - 48) := by
  unfold digitsVal
  rw [List.foldl_append]
  rfl

theorem digitsVal_natDigits : ∀ n : ℕ, digitsVal (natDigits n) = n := by
  intro n
  induction n using Nat.strong_induction_on with
  | _ n ih =>
    rw [natDigits]
    split
    · rename_i h
      unfold digitsVal
      simp only [List.foldl_cons, List.foldl_nil]
      have hv : (Char.ofNat (48 + n)).toNat = 48 + n := by
        interval_cases n <;> decide
      omega
    · rename_i h
      rw [digitsVal_append_one, ih (n / 10) (Nat.div_lt_self (by omega) (by omega))]
      have hm : n % 10 < 10 := Nat.mod_lt _ (by omega)
      have hv : (Char.ofNat (48 + n % 10)).toNat = 48 + n % 10 := by
        interval_cases h2 : n % 10 <;> simp_all
      omega

theorem takeWhile_all_append (p : Char → Bool) (ds rest : Str) (h : ∀ c ∈ ds, p c = true) :
    (ds ++ rest).takeWhile p = ds ++ rest.takeWhile p ∧
    (ds ++ rest).dropWhile p = rest.dropWhile p := by
  induction ds with
  | nil => simp
  | cons d ds' ih =>
    have hd : p d = true := h d (by simp)
    have ihr := ih (fun c hc => h c (by simp [hc]))
    simp only [List.cons_append, List.takeWhile_cons, List.dropWhile_cons, hd, if_true,
      List.cons.injEq, true_and]
    exact ⟨ihr.1, ihr.2⟩

theorem parseNum_natDigits (n : ℕ) (rest : Str)
    (hrest : ∀ c, rest.head? = some c → isDigitC c = false) :
    parseNum (natDigits n ++ rest) = some ((n : ℤ), rest) := by
  have hall := natDigits_all_digits n
  have htw := takeWhile_all_append isDigitC (natDigits n) rest hall
  have hrtw : rest.takeWhile isDigitC = [] := by
    cases rest with
    | nil => rfl
    | cons r rs =>
      have := hrest r rfl
      simp [List.takeWhile_cons, this]
  have hrdw : rest.dropWhile isDigitC = rest := by
    cases rest with
    | nil => rfl
    | cons r rs =>
      have := hrest r rfl
      simp [List.dropWhile_cons, this]
  rcases hnd : natDigits n with _ | ⟨d, ds⟩
  · exact absurd hnd (natDigits_ne_nil n)
  · have hddig : isDigitC d = true := by
      have := hall d
      rw [hnd] at this
      exact this (by simp)
    rw [hnd] at htw
    unfold parseNum
    split
    · rename_i heq
      rw [List.cons_append] at heq
      injection heq with h1 h2
      subst h1
      simp [isDigitC] at hddig
    · rename_i other heq
      simp only [htw.1, htw.2, hrtw, hrdw, List.append_nil]
      rw [if_neg (by simp)]
      rw [← hnd, digitsVal_natDigits]

theorem parseStrBody_escape : ∀ (s rest : Str) (fuel : ℕ), s.length < fuel →
    parseStrBody fuel (escape s ++ '"' :: rest) = some (s, rest) := by
  intro s
  induction s with
  | nil =>
    intro rest fuel hf
    cases fuel with
    | zero => omega
    | succ f => simp [escape, parseStrBody]
  | cons c s' ih =>
    intro rest fuel hf
    cases fuel with
    | zero => omega
    | succ f =>
      have hih := ih rest f (by simp at hf; omega)
      have hesc : escape (c :: s') = escChar c ++ escape s' := by simp [escape]
      rw [hesc, List.append_assoc]
      by_cases h1 : c = '"'
      · subst h1
        rw [show escChar '"' = ['\\', '"'] from by decide]
        simp [parseStrBody, hih]
      · by_cases h2 : c = '\\'
        · subst h2
          rw [show escChar '\\' = ['\\', '\\'] from by decide]
          simp [parseStrBody, hih]
        · by_cases h3 : c = '\n'
          · subst h3
            rw [show escChar '\n' = ['\\', 'n'] from by decide]
            simp [parseStrBody, hih]
          · by_cases h4 : c = '\t'
            · subst h4
              rw [show escChar '\t' = ['\\', 't'] from by decide]
              simp [parseStrBody, hih]
            · by_cases h5 : c = '\r'
              · subst h5
                rw [show escChar '\r' = ['\\', 'r'] from by decide]
                simp [parseStrBody, hih]
              · by_cases h6 : c = Char.ofNat 8
                · subst h6
                  rw [show escChar (Char.ofNat 8) = ['\\', 'b'] from by decide]
                  simp [parseStrBody, hih]
                · by_cases h7 : c = Char.ofNat 12
                  · subst h7
                    rw [show escChar (Char.ofNat 12) = ['\\', 'f'] from by decide]
                    simp [parseStrBody, hih]
                  · by_cases h8 : c.toNat < 0x20
                    · have e1 : hexVal (hexDigit (c.toNat / 4096 % 16)) =
                          some (c.toNat / 4096 % 16) := hexVal_hexDigit _ (Nat.mod_lt _ (by omega))
                      have e2 : hexVal (hexDigit (c.toNat / 256 % 16)) =
                          some (c.toNat / 256 % 16) := hexVal_hexDigit _ (Nat.mod_lt _ (by omega))
                      have e3 : hexVal (hexDigit (c.toNat / 16 % 16)) =
                          some (c.toNat / 16 % 16) := hexVal_hexDigit _ (Nat.mod_lt _ (by omega))
                      have e4 : hexVal (hexDigit (c.toNat % 16)) =
                          some (c.toNat % 16) := hexVal_hexDigit _ (Nat.mod_lt _ (by omega))
                      have harith : c.toNat / 4096 % 16 * 4096 + c.toNat / 256 % 16 * 256 +
                          c.toNat / 16 % 16 * 16 + c.toNat % 16 = c.toNat := by omega
                      have hsur : ¬(0xD800 ≤ c.toNat ∧ c.toNat < 0xE000) := by omega
                      rw [show escChar c = '\\' :: 'u' :: hex4 c.toNat from by
                        rw [escChar, if_neg h1, if_neg h2, if_neg h3, if_neg h4, if_neg h5,
                          if_neg h6, if_neg h7, if_pos h8]]
                      rw [hex4]
                      simp [parseStrBody, e1, e2, e3, e4, harith, hsur, hih, Char.ofNat_toNat]
                    · rw [show escChar c = [c] from by
                        rw [escChar, if_neg h1, if_neg h2, if_neg h3, if_neg h4, if_neg h5,
                          if_neg h6, if_neg h7, if_neg h8]]
                      simp [parseStrBody, h1, h2, h8, hih]

mutual

/-- Fuel sufficient to parse a dumped value: one unit per nesting level. -/
def jsonFuel : Json → ℕ
  | .str _ => 1
  | .num _ => 1
  | .obj fs => 1 + fieldsFuel fs

/-- Fuel sufficient to parse a dumped field list. -/
def fieldsFuel : List (Str × Json) → ℕ
  | [] => 1
  | (_, v) :: rest => 1 + jsonFuel v + fieldsFuel rest

end

theorem skipWs_cons {c : Char} (s : Str) (h : jsonWs c = false) : skipWs (c :: s) = c :: s := by
  simp [skipWs, List.dropWhile_cons, h]

theorem escChar_length_pos (c : Char) : 1 ≤ (escChar c).length := by
  rw [escChar]
  split_ifs <;> simp [hex4]

theorem escape_length_ge (s : Str) : s.length ≤ (escape s).length := by
  induction s with
  | nil => simp [escape]
  | cons c s' ih =>
    have h1 := escChar_length_pos c
    have h2 : escape (c :: s') = escChar c ++ escape s' := by simp [escape]
    rw [h2, List.length_append, List.length_cons]
    omega

theorem digit_head_facts {d : Char} (h : isDigitC d = true) :
    jsonWs d = false ∧ d ≠ '"' ∧ d ≠ '\x7b' ∧ d ≠ '-' := by
  have hr : 48 ≤ d.toNat ∧ d.toNat ≤ 57 := by simpa [isDigitC] using h
  have hne : ∀ x : Char, x.toNat < 48 ∨ 57 < x.toNat → d ≠ x := by
    intro x hx he
    rw [he] at hr
    omega
  refine ⟨?_, hne _ (by decide), hne _ (by decide), hne _ (by decide)⟩
  simp only [jsonWs, Bool.or_eq_false_iff, beq_eq_false_iff_ne, ne_eq]
  exact ⟨⟨⟨hne _ (by decide), hne _ (by decide)⟩, hne _ (by decide)⟩, hne _ (by decide)⟩

theorem parseNum_intDigits (n : ℤ) (rest : Str)
    (hrest : ∀ c, rest.head? = some c → isDigitC c = false) :
    parseNum (intDigits n ++ rest) = some (n, rest) := by
  rw [intDigits]
  split_ifs with hn
  · rw [List.cons_append]
    have hall := natDigits_all_digits n.natAbs
    have htw := takeWhile_all_append isDigitC (natDigits n.natAbs) rest hall
    have hrtw : rest.takeWhile isDigitC = [] := by
      cases rest with
      | nil => rfl
      | cons r rs => simp [List.takeWhile_cons, hrest r rfl]
    have hrdw : rest.dropWhile isDigitC = rest := by
      cases rest with
      | nil => rfl
      | cons r rs => simp [List.dropWhile_cons, hrest r rfl]
    rw [parseNum]
    simp only [htw.1, htw.2, hrtw, hrdw, List.append_nil]
    rw [if_neg (by simp [natDigits_ne_nil])]
    rw [digitsVal_natDigits]
    congr 1
    congr 1
    omega
  · rw [parseNum_natDigits n.toNat rest hrest]
    congr 2
    omega

/-- The first character of a rendered integer: a minus sign or a digit. -/
theorem intDigits_head (n : ℤ) :
    ∃ d t, intDigits n = d :: t ∧ (d = '-' ∨ isDigitC d = true) := by
  rw [intDigits]
  split_ifs with hn
  · exact ⟨'-', _, rfl, Or.inl rfl⟩
  · rcases hh : natDigits n.toNat with _ | ⟨d, t⟩
    · exact absurd hh (natDigits_ne_nil _)
    · refine ⟨d, t, rfl, Or.inr ?_⟩
      have := natDigits_all_digits n.toNat d
      rw [hh] at this
      exact this (by simp)

theorem parseJson_ws (f : ℕ) (c : Char) (x : Str) (h : jsonWs c = true) :
    parseJson (f + 1) (c :: x) = parseJson (f + 1) x := by
  have hsw : skipWs (c :: x) = skipWs x := by simp [skipWs, List.dropWhile_cons, h]
  rw [parseJson, parseJson, hsw]

theorem parseFields_ws (f : ℕ) (c : Char) (x : Str) (h : jsonWs c = true) :
    parseFields (f + 1) (c :: x) = parseFields (f + 1) x := by
  have hsw : skipWs (c :: x) = skipWs x := by simp [skipWs, List.dropWhile_cons, h]
  rw [parseFields, parseFields, hsw]


theorem jsonFuel_pos (v : Json) : 1 ≤ jsonFuel v := by
  cases v <;> simp [jsonFuel]



mutual

theorem parse_dumpJson : ∀ (v : Json) (rest : Str) (fuel : ℕ), jsonFuel v ≤ fuel →
    (∀ c, rest.head? = some c → isDigitC c = false) →
    parseJson fuel (dumpJson v ++ rest) = some (v, rest)
  | .str s, rest, fuel, hf, hrest => by
    match fuel with
    | 0 => simp [jsonFuel] at hf
    | f + 1 =>
      have hps := parseStrBody_escape s rest ((escape s ++ '"' :: rest).length + 1)
        (by have := escape_length_ge s
            simp only [List.length_append, List.length_cons]
            omega)
      have hin : dumpJson (.str s) ++ rest = '"' :: (escape s ++ '"' :: rest) := by
        simp [dumpJson]
      rw [hin, parseJson, skipWs_cons _ (by decide), parseValue, if_pos rfl, hps,
        Option.map_some']
  | .num n, rest, fuel, hf, hrest => by
    match fuel with
    | 0 => simp [jsonFuel] at hf
    | f + 1 =>
      obtain ⟨d, t, hd, hdp⟩ := intDigits_head n
      have hpn := parseNum_intDigits n rest hrest
      have hhead : jsonWs d = false ∧ d ≠ '"' ∧ d ≠ '\x7b' := by
        rcases hdp with rfl | hdig
        · exact ⟨by decide, by decide, by decide⟩
        · obtain ⟨a, b, c, _⟩ := digit_head_facts hdig
          exact ⟨a, b, c⟩
      have hin : dumpJson (.num n) ++ rest = d :: (t ++ rest) := by
        simp [dumpJson, hd]
      have hin2 : d :: (t ++ rest) = intDigits n ++ rest := by
        rw [hd]
        simp
      rw [hin, parseJson, skipWs_cons _ hhead.1, parseValue, if_neg hhead.2.1,
        if_neg hhead.2.2, hin2, hpn, Option.map_some']
  | .obj [], rest, fuel, hf, hrest => by
    match fuel with
    | 0 => simp [jsonFuel] at hf
    | f + 1 =>
      have hin : dumpJson (.obj []) ++ rest =
          '\x7b' :: (dumpFields [] ++ '\x7d' :: rest) := by
        simp [dumpJson]
      rw [hin, parseJson, skipWs_cons _ (by decide), parseValue, if_neg (by decide),
        if_pos rfl,
        show dumpFields ([] : List (Str × Json)) = ([] : Str) from by rw [dumpFields],
        List.nil_append, skipWs_cons _ (by decide), parseObjBody, if_pos rfl]
  | .obj ((k, v) :: fs'), rest, fuel, hf, hrest => by
    match fuel with
    | 0 => simp [jsonFuel] at hf
    | f + 1 =>
      have hin : dumpJson (.obj ((k, v) :: fs')) ++ rest =
          '\x7b' :: (dumpFields ((k, v) :: fs') ++ '\x7d' :: rest) := by
        simp [dumpJson]
      have hff : fieldsFuel ((k, v) :: fs') ≤ f := by
        simp only [jsonFuel] at hf
        omega
      have hpf := parse_dumpFields k v fs' rest f hff
      have hdf : ∃ tl, dumpFields ((k, v) :: fs') = '"' :: tl := by
        cases fs' with
        | nil =>
          rw [dumpFields]
          exact ⟨_, rfl⟩
        | cons kv2 fs2 =>
          rw [dumpFields]
          · exact ⟨_, rfl⟩
          · simp
      obtain ⟨tl, htl⟩ := hdf
      have hsk : skipWs (dumpFields ((k, v) :: fs') ++ '\x7d' :: rest) =
          dumpFields ((k, v) :: fs') ++ '\x7d' :: rest := by
        rw [htl, List.cons_append]
        exact skipWs_cons _ (by decide)
      have hhd : dumpFields ((k, v) :: fs') ++ '\x7d' :: rest =
          '"' :: (tl ++ '\x7d' :: rest) := by
        rw [htl, List.cons_append]
      rw [hin, parseJson, skipWs_cons _ (by decide), parseValue, if_neg (by decide),
        if_pos rfl, hsk, hhd, parseObjBody, if_neg (by decide), ← hhd, hpf,
        Option.map_some']
termination_by v _ _ => jsonFuel v
decreasing_by all_goals (simp [jsonFuel, fieldsFuel] <;> omega)

theorem parse_dumpFields : ∀ (k : Str) (v : Json) (fs : List (Str × Json)) (rest : Str)
    (fuel : ℕ), fieldsFuel ((k, v) :: fs) ≤ fuel →
    parseFields fuel (dumpFields ((k, v) :: fs) ++ '\x7d' :: rest) =
      some ((k, v) :: fs, rest)
  | k, v, [], rest, fuel, hf => by
    match fuel with
    | 0 => simp [fieldsFuel] at hf
    | f + 1 =>
      have hvf : jsonFuel v ≤ f := by
        simp only [fieldsFuel] at hf
        omega
      obtain ⟨f', rfl⟩ : ∃ f', f = f' + 1 := ⟨f - 1, by have := jsonFuel_pos v; omega⟩
      have hin : dumpFields [(k, v)] ++ '\x7d' :: rest =
          '"' :: (escape k ++ '"' :: (':' :: ' ' :: (dumpJson v ++ '\x7d' :: rest))) := by
        rw [dumpFields]
        simp
      have hps := parseStrBody_escape k (':' :: ' ' :: (dumpJson v ++ '\x7d' :: rest))
        ((escape k ++ '"' :: (':' :: ' ' :: (dumpJson v ++ '\x7d' :: rest))).length + 1)
        (by have := escape_length_ge k
            simp only [List.length_append, List.length_cons]
            omega)
      have hpv := parse_dumpJson v ('\x7d' :: rest) (f' + 1) hvf
        (fun c hc => by cases hc; decide)
      rw [hin, parseFields, skipWs_cons _ (by decide), parseFieldKey, if_pos rfl, hps,
        Option.some_bind, skipWs_cons _ (by decide), parseFieldColon, if_pos rfl,
        parseJson_ws f' ' ' _ (by decide), hpv, Option.some_bind,
        skipWs_cons _ (by decide), parseFieldNext, if_neg (by decide), if_pos rfl]
  | k, v, (k2, v2) :: fs2, rest, fuel, hf => by
    match fuel with
    | 0 => simp [fieldsFuel] at hf
    | f + 1 =>
      have hvf : jsonFuel v ≤ f := by
        simp only [fieldsFuel] at hf
        omega
      obtain ⟨f', rfl⟩ : ∃ f', f = f' + 1 := ⟨f - 1, by have := jsonFuel_pos v; omega⟩
      have hff2 : fieldsFuel ((k2, v2) :: fs2) ≤ f' + 1 := by
        have h1 := jsonFuel_pos v
        simp only [fieldsFuel] at hf ⊢
        omega
      have hin : dumpFields ((k, v) :: (k2, v2) :: fs2) ++ '\x7d' :: rest =
          '"' :: (escape k ++ '"' :: (':' :: ' ' :: (dumpJson v ++ ',' :: ' ' ::
            (dumpFields ((k2, v2) :: fs2) ++ '\x7d' :: rest)))) := by
        rw [dumpFields]
        · simp
        · simp
      have hps := parseStrBody_escape k
        (':' :: ' ' :: (dumpJson v ++ ',' :: ' ' ::
          (dumpFields ((k2, v2) :: fs2) ++ '\x7d' :: rest)))
        ((escape k ++ '"' :: (':' :: ' ' :: (dumpJson v ++ ',' :: ' ' ::
          (dumpFields ((k2, v2) :: fs2) ++ '\x7d' :: rest)))).length + 1)
        (by have := escape_length_ge k
            simp only [List.length_append, List.length_cons]
            omega)
      have hpv := parse_dumpJson v
        (',' :: ' ' :: (dumpFields ((k2, v2) :: fs2) ++ '\x7d' :: rest)) (f' + 1) hvf
        (fun c hc => by cases hc; decide)
      have hpf2 := parse_dumpFields k2 v2 fs2 rest (f' + 1) hff2
      rw [hin, parseFields, skipWs_cons _ (by decide), parseFieldKey, if_pos rfl, hps,
        Option.some_bind, skipWs_cons _ (by decide), parseFieldColon, if_pos rfl,
        parseJson_ws f' ' ' _ (by decide), hpv, Option.some_bind,
        skipWs_cons _ (by decide), parseFieldNext, if_pos rfl,
        parseFields_ws f' ' ' _ (by decide), hpf2, Option.map_some']
termination_by k v fs _ _ => fieldsFuel ((k, v) :: fs)
decreasing_by all_goals (simp [jsonFuel, fieldsFuel] <;> omega)

end

theorem newline_not_mem_escChar (c : Char) : '\n' ∉ escChar c := by
  rw [escChar]
  split_ifs with h1 h2 h3 h4 h5 h6 h7 h8
  · decide
  · decide
  · decide
  · decide
  · decide
  · decide
  · decide
  · intro hm
    rw [hex4] at hm
    have hd : ∀ d : ℕ, d < 16 → hexDigit d ≠ '\n' := fun d h => (hexDigit_not_ws_digit d h).1
    simp only [List.mem_cons, List.not_mem_nil, or_false] at hm
    rcases hm with h | h | h | h | h | h
    · exact absurd h (by decide)
    · exact absurd h (by decide)
    · exact hd _ (Nat.mod_lt _ (by omega)) h.symm
    · exact hd _ (Nat.mod_lt _ (by omega)) h.symm
    · exact hd _ (Nat.mod_lt _ (by omega)) h.symm
    · exact hd _ (Nat.mod_lt _ (by omega)) h.symm
  · intro hm
    simp only [List.mem_singleton] at hm
    exact h8 (by rw [← hm]; decide)

theorem newline_not_mem_escape (s : Str) : '\n' ∉ escape s := by
  intro hm
  rw [escape, List.mem_flatMap] at hm
  obtain ⟨c, _, hc⟩ := hm
  exact newline_not_mem_escChar c hc

theorem newline_not_mem_intDigits (n : ℤ) : '\n' ∉ intDigits n := by
  intro hm
  rw [intDigits] at hm
  have hdig : ∀ m : ℕ, '\n' ∉ natDigits m := by
    intro m hmem
    have := natDigits_all_digits m _ hmem
    simp [isDigitC] at this
  split_ifs at hm
  · simp only [List.mem_cons] at hm
    rcases hm with h | h
    · exact absurd h (by decide)
    · exact hdig _ h
  · exact hdig _ hm

mutual

theorem newline_not_mem_dumpJson : ∀ v : Json, '\n' ∉ dumpJson v
  | .str s => by
    rw [dumpJson]
    intro hm
    simp at hm
    exact newline_not_mem_escape s hm
  | .num n => by
    rw [dumpJson]
    exact newline_not_mem_intDigits n
  | .obj fs => by
    rw [dumpJson]
    intro hm
    simp at hm
    exact newline_not_mem_dumpFields fs hm
termination_by v => jsonFuel v
decreasing_by all_goals (simp [jsonFuel, fieldsFuel] <;> omega)

theorem newline_not_mem_dumpFields : ∀ fs : List (Str × Json), '\n' ∉ dumpFields fs
  | [] => by
    rw [dumpFields]
    simp
  | [(k, v)] => by
    rw [dumpFields]
    intro hm
    simp at hm
    rcases hm with h | h
    · exact newline_not_mem_escape k h
    · exact newline_not_mem_dumpJson v h
  | (k, v) :: (k2, v2) :: fs2 => by
    rw [dumpFields]
    · intro hm
      simp at hm
      rcases hm with h | h | h
      · exact newline_not_mem_escape k h
      · exact newline_not_mem_dumpJson v h
      · exact newline_not_mem_dumpFields ((k2, v2) :: fs2) h
    · simp
termination_by fs => fieldsFuel fs
decreasing_by all_goals (simp [jsonFuel, fieldsFuel] <;> omega)

end

mutual

theorem jsonFuel_le_dump : ∀ v : Json, jsonFuel v ≤ (dumpJson v).length + 1
  | .str s => by
    rw [jsonFuel]
    omega
  | .num n => by
    rw [jsonFuel]
    omega
  | .obj [] => by
    rw [jsonFuel, fieldsFuel, dumpJson, dumpFields]
    simp
  | .obj ((k, v) :: fs) => by
    have h1 := fieldsFuel_le_dump k v fs
    rw [jsonFuel, dumpJson]
    simp only [List.length_append, List.length_cons]
    omega
termination_by v => jsonFuel v
decreasing_by all_goals (simp [jsonFuel, fieldsFuel] <;> omega)

theorem fieldsFuel_le_dump : ∀ (k : Str) (v : Json) (fs : List (Str × Json)),
    fieldsFuel ((k, v) :: fs) ≤ (dumpFields ((k, v) :: fs)).length + 1
  | k, v, [] => by
    have h1 := jsonFuel_le_dump v
    rw [fieldsFuel, fieldsFuel, dumpFields]
    simp only [List.length_append, List.length_cons]
    omega
  | k, v, (k2, v2) :: fs2 => by
    have h1 := jsonFuel_le_dump v
    have h2 := fieldsFuel_le_dump k2 v2 fs2
    rw [fieldsFuel, dumpFields]
    · simp only [List.length_append, List.length_cons]
      omega
    · simp
termination_by k v fs => fieldsFuel ((k, v) :: fs)
decreasing_by all_goals (simp [jsonFuel, fieldsFuel] <;> omega)

end

theorem loads_dumpJson (v : Json) : loads (dumpJson v) = some v := by
  have h := parse_dumpJson v [] ((dumpJson v).length + 1)
    (jsonFuel_le_dump v) (fun c hc => by simp at hc)
  rw [List.append_nil] at h
  rw [loads, h]
  simp [skipWs]

/-- Lines of a text file as Python file iteration yields them (terminators removed;
a trailing newline does not produce an extra empty line). -/
def splitLines : Str → List Str
  | [] => []
  | '\n' :: rest => [] :: splitLines rest
  | c :: rest =>
    match splitLines rest with
    | [] => [[c]]
    | l :: ls => (c :: l) :: ls

theorem splitLines_append (line rest : Str) (hnl : '\n' ∉ line) :
    splitLines (line ++ '\n' :: rest) = line :: splitLines rest := by
  induction line with
  | nil =>
    simp only [List.nil_append]
    rw [splitLines]
  | cons c line' ih =>
    have hc : c ≠ '\n' := fun h => hnl (h ▸ List.mem_cons_self c line')
    have ihr := ih (fun h => hnl (List.mem_cons_of_mem c h))
    rw [List.cons_append, splitLines]
    · rw [ihr]
    · exact fun h => absurd h hc

/-- Model of `write_jsonl` (src/extract.py lines 116-121): mode "w" discards the
prior file content wholesale; the manifest object is written first, then one JSON
object per line, each line terminated by a newline. -/
def write_jsonl (prior : Str) (manifest_line : Json) (items : List Json) : Str :=
  dumpJson manifest_line ++ '\n' :: (items.flatMap (fun o => dumpJson o ++ ['\n']))

theorem splitLines_flat_dump (items : List Json) :
    splitLines (items.flatMap (fun o => dumpJson o ++ ['\n'])) = items.map dumpJson := by
  induction items with
  | nil => rw [List.flatMap_nil, splitLines, List.map_nil]
  | cons o items' ih =>
    rw [List.flatMap_cons, List.append_assoc, List.singleton_append,
      splitLines_append _ _ (newline_not_mem_dumpJson o), ih, List.map_cons]

/-- The corpus file content written by `write_jsonl` splits into exactly the dumped
manifest followed by the dumped items, independently of the prior file content. -/
theorem splitLines_write_jsonl (prior : Str) (m : Json) (items : List Json) :
    splitLines (write_jsonl prior m items) = (m :: items).map dumpJson := by
  rw [write_jsonl, splitLines_append _ _ (newline_not_mem_dumpJson m),
    splitLines_flat_dump, List.map_cons]

/-- Model of `load_corpus` (src/run.py lines 20-26): parse every line of the corpus
file as JSON and collect the "text" field of every entry, the manifest included, in
file order; a malformed line or missing field raises (modelled by `none`). -/
def load_corpus (content : Str) : Option (List Str) :=
  (splitLines content).mapM (fun l =>
    (loads l).bind (fun j =>
      match getField j (cs "text") with
      | some (Json.str s) => some s
      | _ => none))

/-- The manifest dict built in `main` (src/extract.py lines 145-150), with the
insertion order of its keys. -/
def manifestJson (mtext root : Str) : Json :=
  Json.obj [(cs "path", .str (cs "__TREE__")), (cs "text", .str mtext),
            (cs "root", .str root), (cs "type", .str (cs "tree"))]

/-- The record dict built in `main` (src/extract.py lines 163-171), with the
insertion order of its keys. -/
def recordJson (r : CorpusRecord) : Json :=
  Json.obj [(cs "path", .str r.path), (cs "abs_path", .str r.abs_path),
            (cs "root", .str r.root), (cs "lang", .str r.lang),
            (cs "size", .num (r.size : ℤ)), (cs "hash", .str r.hash),
            (cs "text", .str r.text)]

theorem getField_recordJson_text (r : CorpusRecord) :
    getField (recordJson r) (cs "text") = some (.str r.text) := by
  rfl

theorem getField_recordJson_hash (r : CorpusRecord) :
    getField (recordJson r) (cs "hash") = some (.str r.hash) := by
  rfl

/-- C8: writing a manifest and N records with `write_jsonl` and re-reading the file
yields exactly N+1 lines — the manifest first, then the N records — and every
reloaded line parses back to exactly the object that was written, so each reloaded
record's `text` and `hash` fields equal the originals; the result is independent of
the prior file content (mode "w"). -/
theorem C8_corpus_roundtrip (prior : Str) (mtext mroot : Str) (records : List CorpusRecord) :
    (splitLines (write_jsonl prior (manifestJson mtext mroot) (records.map recordJson))).length
        = records.length + 1 ∧
    (splitLines (write_jsonl prior (manifestJson mtext mroot) (records.map recordJson))).map loads
        = (manifestJson mtext mroot :: records.map recordJson).map some ∧
    (∀ r ∈ records, getField (recordJson r) (cs "text") = some (.str r.text) ∧
        getField (recordJson r) (cs "hash") = some (.str r.hash)) := by
  refine ⟨?_, ?_, ?_⟩
  · rw [splitLines_write_jsonl]
    simp
  · rw [splitLines_write_jsonl, List.map_map]
    apply List.map_congr_left
    intro j _
    exact loads_dumpJson j
  · intro r _
    exact ⟨getField_recordJson_text r, getField_recordJson_hash r⟩

/-- Model of `os.path.basename` on POSIX paths. -/
def pyBasename (s : Str) : Str := (s.reverse.takeWhile (fun c => c != '/')).reverse

/-- The manifest built in `main` (src/extract.py lines 144-150): sentinel path, the
newline-joined tree listing headed by the root's basename, the root, and the "tree"
type tag. -/
def manifest_line (root : Str) (t : FSTree) : Json :=
  manifestJson ((cs "\n").intercalate (pyBasename root :: tree_lines t)) root

/-- The records built by the extraction loop in `main` (src/extract.py lines
152-173), one per walked file, in walk order. -/
def extractRecords (maxBytes : ℕ) (root : Str) (t : FSTree) : List CorpusRecord :=
  (walkTree [] t).map (buildRecord maxBytes root)

/-- Model of a whole extraction run of `main`: the corpus file content it writes. -/
def extractCorpus (maxBytes : ℕ) (root : Str) (t : FSTree) (prior : Str) : Str :=
  write_jsonl prior (manifest_line root t)
    ((extractRecords maxBytes root t).map recordJson)

theorem joinPath_ne_tree (ds : List Str) (n : Str) (hall : is_allowed_file n = true) :
    joinPath (ds ++ [n]) ≠ cs "__TREE__" := by
  cases ds with
  | nil =>
    intro he
    rw [List.nil_append] at he
    have h1 : joinPath [n] = n := by simp [joinPath, List.intercalate]
    rw [h1] at he
    rw [he] at hall
    exact absurd hall (by decide)
  | cons d ds' =>
    intro he
    have h1 : '/' ∈ joinPath (d :: (ds' ++ [n])) := by
      cases ds' with
      | nil =>
        simp only [List.nil_append, joinPath, List.intercalate,
          List.intersperse_cons_cons, List.intersperse_singleton, List.flatten,
          List.mem_append, List.mem_flatten]
        simp
        exact Or.inr (Or.inl (by decide))
      | cons d2 ds2 =>
        simp [joinPath, List.intercalate, List.intersperse_cons_cons]
        exact Or.inr (Or.inl (by decide))
    rw [List.cons_append] at he
    rw [he] at h1
    exact absurd h1 (by decide)

/-- C9: every corpus file produced by an extraction run over a directory holds the
manifest as its first line — a JSON object with the sentinel path "__TREE__" and
type "tree" — followed by exactly one JSON object per extracted record; no record
line carries the sentinel path, so the manifest is unique; and the written content
is independent of the file's prior content (mode "w" overwrites wholesale). -/
theorem C9_manifest_first (maxBytes : ℕ) (root rootName : Str) (entries : List FSTree)
    (prior prior' : Str) :
    extractCorpus maxBytes root (.dir rootName entries) prior =
      extractCorpus maxBytes root (.dir rootName entries) prior' ∧
    splitLines (extractCorpus maxBytes root (.dir rootName entries) prior) =
      (manifest_line root (.dir rootName entries) ::
        (extractRecords maxBytes root (.dir rootName entries)).map recordJson).map dumpJson ∧
    loads (dumpJson (manifest_line root (.dir rootName entries))) =
      some (manifest_line root (.dir rootName entries)) ∧
    getField (manifest_line root (.dir rootName entries)) (cs "path") =
      some (.str (cs "__TREE__")) ∧
    getField (manifest_line root (.dir rootName entries)) (cs "type") =
      some (.str (cs "tree")) ∧
    ∀ r ∈ extractRecords maxBytes root (.dir rootName entries),
      loads (dumpJson (recordJson r)) = some (recordJson r) ∧
      getField (recordJson r) (cs "path") = some (.str r.path) ∧
      r.path ≠ cs "__TREE__" := by
  refine ⟨rfl, splitLines_write_jsonl _ _ _, loads_dumpJson _, rfl, rfl, ?_⟩
  intro r hr
  rw [extractRecords, List.mem_map] at hr
  obtain ⟨w, hw, rfl⟩ := hr
  rw [mem_walkTree_dir] at hw
  obtain ⟨ds, hds, _, hall, _⟩ := hw
  refine ⟨loads_dumpJson _, rfl, ?_⟩
  show joinPath (w.relDirs ++ [w.name]) ≠ cs "__TREE__"
  rw [hds, List.nil_append]
  exact joinPath_ne_tree ds w.name hall

/-- Model of a `faiss.IndexFlatL2`: the stored vectors in insertion order (the
dimension is carried only for fidelity; embeddings are modelled as rational
vectors). -/
structure FaissIndex where
  dim : ℕ
  vectors : List (List ℚ)

/-- Number of stored vectors, `idx.ntotal`. -/
def FaissIndex.ntotal (idx : FaissIndex) : ℕ := idx.vectors.length

/-- Model of `build_index` (src/run.py lines 28-38): one embedding vector per
loaded text, all inserted into a flat L2 index. The embedding model is an abstract
function parameter, treated as pure per §4.4 of the specification. -/
def build_index (enc : Str → List ℚ) (texts : List Str) : FaissIndex :=
  FaissIndex.mk ((texts.map enc).headD []).length (texts.map enc)

/-- Squared Euclidean distance between two vectors. -/
def sqDist (u v : List ℚ) : ℚ := (List.zipWith (fun a b => (a - b) ^ 2) u v).sum

/-- Comparison used to rank stored vectors against a query: ascending squared
distance, ties broken by insertion order (the tie order FAISS exhibits, noted in
the specification as an implementation artifact). -/
def distLe (db : List (List ℚ)) (q : List ℚ) (i j : ℕ) : Bool :=
  sqDist (db.getD i []) q < sqDist (db.getD j []) q ||
    (sqDist (db.getD i []) q == sqDist (db.getD j []) q && i ≤ j)

/-- Modelled from the spec: the external FAISS `IndexFlatL2.search` boundary
(§4.4-§4.5) — exact k-nearest search by squared L2 distance over the stored
vectors; per FAISS's documented behaviour, when fewer than k vectors are stored
the label array is padded with -1 entries. -/
def faissSearch (idx : FaissIndex) (q : List ℚ) (k : ℕ) : List ℤ :=
  (((List.range idx.vectors.length).mergeSort (distLe idx.vectors q)).take k).map
    (fun i : ℕ => (i : ℤ)) ++ List.replicate (k - idx.vectors.length) (-1)

/-- Python list indexing: non-negative indices below the length, or negative
indices counted from the end; anything else raises IndexError (`none`). -/
def pyIndex (texts : List Str) (i : ℤ) : Option Str :=
  if 0 ≤ i ∧ i < texts.length then some (texts.getD i.toNat [])
  else if -(texts.length : ℤ) ≤ i ∧ i < 0 then
    some (texts.getD (texts.length - (-i).toNat) [])
  else none

/-- Model of `retrieve` (src/run.py lines 40-46): embed the query, search the
index, and index the loaded texts with each returned label (Python indexing, so a
-1 label silently selects the last document). -/
def retrieve (q : Str) (enc : Str → List ℚ) (idx : FaissIndex) (texts : List Str)
    (k : ℕ) : Option (List Str) :=
  (faissSearch idx (enc q) k).mapM (pyIndex texts)

theorem mapM_option_of_forall {α β : Type} (l : List α) (f : α → Option β) (g : α → β)
    (h : ∀ a ∈ l, f a = some (g a)) : l.mapM f = some (l.map g) := by
  induction l with
  | nil => rfl
  | cons a l' ih =>
    rw [List.mapM_cons, h a (List.mem_cons_self a l'),
      ih (fun b hb => h b (List.mem_cons_of_mem _ hb))]
    rfl

theorem map_getD_range {α : Type} (l : List α) (d : α) :
    (List.range l.length).map (fun i => l.getD i d) = l := by
  induction l with
  | nil => rfl
  | cons a l' ih =>
    rw [List.length_cons, List.range_succ_eq_map, List.map_cons, List.map_map]
    have h2 : List.map ((fun i => (a :: l').getD i d) ∘ Nat.succ) (List.range l'.length)
        = List.map (fun i => l'.getD i d) (List.range l'.length) := by
      apply List.map_congr_left
      intro i _
      simp [List.getD_cons_succ]
    rw [h2, ih]
    rfl

theorem getD_map_const {α : Type} (l : List α) (c : List ℚ) (i : ℕ) (h : i < l.length) :
    (l.map (fun _ => c)).getD i [] = c := by
  induction l generalizing i with
  | nil => simp at h
  | cons a l' ih =>
    cases i with
    | zero => rfl
    | succ i' =>
      rw [List.map_cons, List.getD_cons_succ]
      exact ih i' (by simp at h; omega)

theorem mapM_option_map {α β γ : Type} (l : List α) (h : α → β) (f : β → Option γ) :
    (l.map h).mapM f = l.mapM (fun a => f (h a)) := by
  induction l with
  | nil => rfl
  | cons a l' ih => rw [List.map_cons, List.mapM_cons, List.mapM_cons, ih]

/-- The "text" extraction performed per corpus line by `load_corpus`. -/
def lineText (l : Str) : Option Str :=
  (loads l).bind (fun j =>
    match getField j (cs "text") with
    | some (Json.str s) => some s
    | _ => none)

theorem load_corpus_eq (content : Str) :
    load_corpus content = (splitLines content).mapM lineText := by
  rfl

theorem load_corpus_write (prior mtext mroot : Str) (records : List CorpusRecord) :
    load_corpus (write_jsonl prior (manifestJson mtext mroot) (records.map recordJson)) =
      some (mtext :: records.map (fun r => r.text)) := by
  rw [load_corpus_eq, splitLines_write_jsonl, mapM_option_map]
  have h := mapM_option_of_forall (manifestJson mtext mroot :: records.map recordJson)
    (fun j => lineText (dumpJson j))
    (fun j => match getField j (cs "text") with
              | some (Json.str s) => s
              | _ => [])
    (by
      intro j hj
      rcases List.mem_cons.mp hj with rfl | hj
      · unfold lineText
        simp only []
        rw [loads_dumpJson, Option.some_bind]
        rfl
      · rw [List.mem_map] at hj
        obtain ⟨r, _, rfl⟩ := hj
        unfold lineText
        simp only []
        rw [loads_dumpJson, Option.some_bind]
        rfl)
  rw [h]
  congr 1
  rw [List.map_cons, List.map_map]
  congr 1

/-- C5 (implicit behaviour made explicit): `load_corpus` parses every line of the
corpus file — the first-line tree manifest included — into the document list;
`build_index` embeds and inserts one vector per loaded line, so the number of
indexed vectors equals the full line count (records plus manifest); and the
manifest text itself is retrievable: with an embedding that gives every document
the same vector, a top-1 retrieval returns exactly the manifest text (tie broken
by insertion order, manifest first). -/
theorem C5_manifest_indexed (prior mtext mroot : Str) (records : List CorpusRecord)
    (enc : Str → List ℚ) (q : Str) :
    load_corpus (write_jsonl prior (manifestJson mtext mroot) (records.map recordJson)) =
      some (mtext :: records.map (fun r => r.text)) ∧
    (build_index enc (mtext :: records.map (fun r => r.text))).ntotal =
      records.length + 1 ∧
    retrieve q (fun _ => [0])
      (build_index (fun _ => [0]) (mtext :: records.map (fun r => r.text)))
      (mtext :: records.map (fun r => r.text)) 1 = some [mtext] := by
  refine ⟨load_corpus_write prior mtext mroot records, ?_, ?_⟩
  · rw [build_index, FaissIndex.ntotal]
    simp
  · set texts : List Str := mtext :: records.map (fun r => r.text) with htexts
    have hn : texts.length = records.length + 1 := by simp [htexts]
    have hdb : (build_index (fun _ => ([0] : List ℚ)) texts).vectors =
        texts.map (fun _ => ([0] : List ℚ)) := rfl
    have hpw : List.Pairwise
        (fun i j => distLe (texts.map (fun _ => ([0] : List ℚ))) [0] i j = true)
        (List.range texts.length) := by
      refine (List.pairwise_lt_range texts.length).imp_of_mem ?_
      intro i j hi hj hij
      rw [List.mem_range] at hi hj
      rw [distLe, getD_map_const _ _ _ (by simpa using hi),
        getD_map_const _ _ _ (by simpa using hj)]
      simp [Nat.le_of_lt hij]
    have hsort : (List.range texts.length).mergeSort
        (distLe (texts.map (fun _ => ([0] : List ℚ))) [0]) = List.range texts.length :=
      List.mergeSort_of_sorted hpw
    rw [retrieve, faissSearch, hdb]
    simp only [List.length_map]
    rw [hsort, hn, List.range_succ_eq_map]
    have h1 : (1 : ℕ) - (records.length + 1) = 0 := by omega
    rw [show List.take 1 (0 :: List.map Nat.succ (List.range records.length)) = [0] from rfl]
    simp only [h1, List.replicate_zero, List.append_nil, List.map_cons, List.map_nil]
    have hpy : pyIndex texts 0 = some mtext := by
      rw [pyIndex, if_pos]
      · rfl
      · refine ⟨le_refl 0, ?_⟩
        rw [hn]
        exact_mod_cast Nat.succ_pos records.length
    exact mapM_option_of_forall [((0 : ℕ) : ℤ)] (pyIndex texts) (fun _ => mtext)
      (by
        intro a ha
        rcases List.mem_singleton.mp ha with rfl
        exact hpy)

theorem retrieve_overflow (texts : List Str) (q : Str) (enc : Str → List ℚ) (k : ℕ)
    (hn : texts ≠ []) (hk : texts.length ≤ k) :
    ∃ res, retrieve q enc (build_index enc texts) texts k = some res ∧
      res.length = k ∧
      (res.take texts.length).Perm texts ∧
      res.drop texts.length = List.replicate (k - texts.length) (texts.getLast hn) := by
  have hpos : 0 < texts.length := List.length_pos.mpr hn
  have hgl : texts.getD (texts.length - 1) [] = texts.getLast hn := by
    rw [List.getD_eq_getElem texts [] (show texts.length - 1 < texts.length by omega),
      List.getLast_eq_getElem]
  have hslen : ((List.range texts.length).mergeSort
      (distLe (texts.map enc) (enc q))).length = texts.length := by
    rw [(List.mergeSort_perm _ _).length_eq, List.length_range]
  refine ⟨(((List.range texts.length).mergeSort (distLe (texts.map enc) (enc q))).map
      (fun i => texts.getD i [])) ++
      List.replicate (k - texts.length) (texts.getD (texts.length - 1) []), ?_, ?_, ?_, ?_⟩
  · rw [retrieve, faissSearch]
    have hv : (build_index enc texts).vectors = texts.map enc := rfl
    rw [hv, List.length_map,
      List.take_of_length_le (show ((List.range texts.length).mergeSort
        (distLe (texts.map enc) (enc q))).length ≤ k by rw [hslen]; exact hk)]
    have hforall : ∀ a ∈ (((List.range texts.length).mergeSort
          (distLe (texts.map enc) (enc q))).map (fun i : ℕ => (i : ℤ))) ++
          List.replicate (k - texts.length) (-1 : ℤ),
        pyIndex texts a = some (if 0 ≤ a then texts.getD a.toNat []
          else texts.getD (texts.length - 1) []) := by
      intro a ha
      rcases List.mem_append.mp ha with hmap | hrep
      · rw [List.mem_map] at hmap
        obtain ⟨i, hi, rfl⟩ := hmap
        have hilt : i < texts.length := by
          rw [List.mem_mergeSort, List.mem_range] at hi
          exact hi
        rw [pyIndex, if_pos ⟨Int.natCast_nonneg i, by exact_mod_cast hilt⟩,
          if_pos (Int.natCast_nonneg i)]
      · rcases List.eq_of_mem_replicate hrep with rfl
        rw [pyIndex, if_neg (by intro h; exact absurd h.1 (by decide)),
          if_pos (show -(texts.length : ℤ) ≤ -1 ∧ (-1 : ℤ) < 0 by omega),
          if_neg (by decide)]
        rfl
    rw [mapM_option_of_forall _ (pyIndex texts)
      (fun a => if 0 ≤ a then texts.getD a.toNat [] else texts.getD (texts.length - 1) [])
      hforall]
    congr 1
    rw [List.map_append, List.map_map, List.map_replicate]
    have hA : List.map ((fun a : ℤ => if 0 ≤ a then texts.getD a.toNat []
          else texts.getD (texts.length - 1) []) ∘ (fun i : ℕ => (i : ℤ)))
        ((List.range texts.length).mergeSort (distLe (texts.map enc) (enc q))) =
        List.map (fun i => texts.getD i [])
        ((List.range texts.length).mergeSort (distLe (texts.map enc) (enc q))) := by
      apply List.map_congr_left
      intro i hi
      show (if 0 ≤ (i : ℤ) then texts.getD ((i : ℤ)).toNat []
        else texts.getD (texts.length - 1) []) = texts.getD i []
      rw [if_pos (Int.natCast_nonneg i), Int.toNat_natCast]
    rw [hA, if_neg (show ¬((0 : ℤ) ≤ -1) by decide)]
  · rw [List.length_append, List.length_map, hslen, List.length_replicate]
    omega
  · rw [List.take_left' (by rw [List.length_map, hslen])]
    have hperm := (List.mergeSort_perm (List.range texts.length)
      (distLe (texts.map enc) (enc q))).map (fun i => texts.getD i [])
    rw [map_getD_range] at hperm
    exact hperm
  · rw [List.drop_left' (by rw [List.length_map, hslen]), hgl]

/-- C1: the spec says requesting k neighbours over n < k documents returns
exactly the n available documents; in fact FAISS pads the label array with -1
entries up to k, and Python's negative indexing turns each -1 into the LAST
document, so `retrieve` returns a list of exactly k texts — the n documents
(nearest-first) followed by k - n duplicates of the last document — and raises
no error. -/
theorem C1_k_overflow (texts : List Str) (q : Str) (enc : Str → List ℚ) (k : ℕ)
    (hn : texts ≠ []) (hk : texts.length < k) :
    ∃ res, retrieve q enc (build_index enc texts) texts k = some res ∧
      res.length = k ∧
      (res.take texts.length).Perm texts ∧
      res.drop texts.length = List.replicate (k - texts.length) (texts.getLast hn) :=
  retrieve_overflow texts q enc k hn hk.le

/-- C1 counterexample: requesting k=10 over a 3-document corpus does NOT return
exactly 3 documents — the result is a list of 10 texts (the padding labels -1
silently duplicate the last document via Python negative indexing). -/
theorem C1_k_overflow_counterexample :
    ∃ res, retrieve (cs "q") (fun t => [(t.length : ℚ)])
        (build_index (fun t => [(t.length : ℚ)]) [cs "a", cs "bb", cs "ccc"])
        [cs "a", cs "bb", cs "ccc"] 10 = some res ∧
      res.length = 10 ∧ ¬ res.length = 3 := by
  obtain ⟨res, h1, h2, -, -⟩ := retrieve_overflow [cs "a", cs "bb", cs "ccc"] (cs "q")
    (fun t => [(t.length : ℚ)]) 10 (by decide) (by decide)
  exact ⟨res, h1, h2, by omega⟩

theorem C1_k_overflow_witness :
    ([cs "a", cs "bb", cs "ccc"] : List Str) ≠ [] ∧
    ([cs "a", cs "bb", cs "ccc"] : List Str).length < 10 ∧
    ∃ res, retrieve (cs "q") (fun t => [(t.length : ℚ)])
        (build_index (fun t => [(t.length : ℚ)]) [cs "a", cs "bb", cs "ccc"])
        [cs "a", cs "bb", cs "ccc"] 10 = some res ∧
      res.length = 10 ∧
      (res.take ([cs "a", cs "bb", cs "ccc"] : List Str).length).Perm
        [cs "a", cs "bb", cs "ccc"] ∧
      res.drop ([cs "a", cs "bb", cs "ccc"] : List Str).length =
        List.replicate (10 - ([cs "a", cs "bb", cs "ccc"] : List Str).length)
          (([cs "a", cs "bb", cs "ccc"] : List Str).getLast (by decide)) :=
  ⟨by decide, by decide,
    C1_k_overflow [cs "a", cs "bb", cs "ccc"] (cs "q") (fun t => [(t.length : ℚ)]) 10
      (by decide) (by decide)⟩

/-- ASCII whitespace recognised by Python's `str.split()` / `str.strip()`
(the Unicode whitespace code points beyond ASCII are outside the modelled
character range of the stream fragments). -/
def pyIsSpace (c : Char) : Bool :=
  c = ' ' || c = '\t' || c = '\n' || c = '\r' || c = '\x0b' || c = '\x0c'

/-- Helper for `countWords`: the Bool records whether the scan is currently
inside a word (a maximal run of non-whitespace). -/
def countWordsAux : Bool → Str → ℕ
  | _, [] => 0
  | inw, c :: rest =>
    if pyIsSpace c then countWordsAux false rest
    else (if inw then 0 else 1) + countWordsAux true rest

/-- `len(s.split())` in Python: the number of maximal whitespace-delimited
words of s. -/
def countWords (s : Str) : ℕ := countWordsAux false s

/-- Python `s.strip()`: remove leading and trailing whitespace. -/
def pyStrip (s : Str) : Str :=
  ((s.dropWhile pyIsSpace).reverse.dropWhile pyIsSpace).reverse

/-- One line of the HTTP response stream as `stream_generate` sees it after
`iter_lines` and `json.loads` (src/run.py lines 59-70): a falsy (empty) line is
skipped, a line that fails to parse is skipped, and a parsed chunk object
carries an optional "response" string fragment and its "done" flag
(`obj.get("done", False)`). -/
inductive StreamLine where
  | empty : StreamLine
  | malformed : StreamLine
  | chunk (response : Option Str) (done : Bool) : StreamLine
deriving DecidableEq

/-- The `done` flag of a line (false for skipped lines). -/
def isDone : StreamLine → Bool
  | StreamLine.chunk _ d => d
  | _ => false

/-- A progress line written by the monitor: the throttled
`[generate] pct% | tokens=... | rate t/s | ETA ...` writes (src/run.py line 77)
and the final `[generate] 100% | tokens=... | done` write (line 83). -/
inductive Report where
  | progress (pct : ℕ) (tokens : ℕ) (rate : ℚ) (eta : ℕ) : Report
  | final (tokens : ℕ) : Report
deriving DecidableEq

/-- Whether a report is the final 100% line. -/
def isFinal : Report → Bool
  | Report.final _ => true
  | _ => false

/-- `min(99, int(tokens / max(1, num_predict) * 100))` (src/run.py line 73);
the float truncation is the exact rational floor here. -/
def pctOf (tokens np : ℕ) : ℕ := min 99 (tokens * 100 / max 1 np)

/-- `tokens / max(0.001, now - start)` (src/run.py line 74). -/
def rateOf (tokens : ℕ) (start now : ℚ) : ℚ :=
  (tokens : ℚ) / max (1 / 1000) (now - start)

/-- `int(max(0, num_predict - tokens) / max(0.001, rate))` (src/run.py
lines 75-76). -/
def etaOf (np tokens : ℕ) (start now : ℚ) : ℕ :=
  (((max 0 ((np : ℤ) - (tokens : ℤ)) : ℤ) : ℚ) /
    max (1 / 1000) (rateOf tokens start now)).floor.toNat

/-- The state returned by the streaming loop: the accumulated text, the running
token estimate, the progress reports written so far, and the lines of the
stream left unconsumed when the loop exits. -/
structure StreamResult where
  generated : Str
  tokens : ℕ
  reports : List Report
  remaining : List StreamLine
deriving DecidableEq

/-- The `for line in s.iter_lines()` loop of `stream_generate` (src/run.py
lines 59-81): skip falsy and unparseable lines; for a parsed chunk, append the
"response" fragment (if present) to the accumulated text and add
`max(1, len(chunk.split()))` to the token estimate; sample the clock (the
oracle `ts` gives the `time.time()` value at the i-th parsed chunk); write a
throttled progress line when at least 0.1s elapsed since the last write or the
chunk is terminal; and break out of the loop on a terminal chunk, leaving the
rest of the stream unread. -/
def streamLoop (np : ℕ) (start : ℚ) (ts : ℕ → ℚ) :
    List StreamLine → ℕ → Str → ℕ → ℚ → StreamResult
  | [], _, gen, tokens, _ => StreamResult.mk gen tokens [] []
  | StreamLine.empty :: rest, i, gen, tokens, last =>
      streamLoop np start ts rest i gen tokens last
  | StreamLine.malformed :: rest, i, gen, tokens, last =>
      streamLoop np start ts rest i gen tokens last
  | StreamLine.chunk resp d :: rest, i, gen, tokens, last =>
      let gen' := match resp with
        | some s => gen ++ s
        | none => gen
      let tokens' := match resp with
        | some s => tokens + max 1 (countWords s)
        | none => tokens
      let now := ts i
      let emit := decide (now - last ≥ 1 / 10) || d
      let reps := if emit then
          [Report.progress (pctOf tokens' np) tokens' (rateOf tokens' start now)
            (etaOf np tokens' start now)]
        else []
      let last' := if emit then now else last
      if d then StreamResult.mk gen' tokens' reps rest
      else
        let r := streamLoop np start ts rest (i + 1) gen' tokens' last'
        StreamResult.mk r.generated r.tokens (reps ++ r.reports) r.remaining

/-- What `stream_generate` observably does (src/run.py lines 54-86): run the
streaming loop from an empty accumulator and zero tokens (`start` and the
initial `last` are the two `time.time()` samples before the loop), then write
the final 100% line and return the accumulated text stripped of leading and
trailing whitespace. -/
def stream_generate (np : ℕ) (start last0 : ℚ) (ts : ℕ → ℚ)
    (lines : List StreamLine) : Str × List Report :=
  let r := streamLoop np start ts lines 0 [] 0 last0
  (pyStrip r.generated, r.reports ++ [Report.final r.tokens])

/-- The lines the loop actually processes: everything up to and including the
first terminal chunk (or the whole stream if none is terminal). -/
def takeToDone : List StreamLine → List StreamLine
  | [] => []
  | StreamLine.chunk resp true :: _ => [StreamLine.chunk resp true]
  | l :: rest => l :: takeToDone rest

/-- The token-estimate contribution of one stream line per src/run.py line 69:
`max(1, len(chunk.split()))` when a "response" fragment is present (even an
empty one), 0 otherwise. -/
def lineTokens : StreamLine → ℕ
  | StreamLine.chunk (some s) _ => max 1 (countWords s)
  | _ => 0

/-- The text fragment contributed by one stream line. -/
def lineFrag : StreamLine → Str
  | StreamLine.chunk (some s) _ => s
  | _ => []

/-- C4 (corrected): the running token estimate after the loop equals the initial
estimate plus, for every processed line carrying a "response" fragment,
`max(1, wordcount)` — so a chunk with an EMPTY fragment still adds 1, not 0 as
the spec claims; only chunks without a "response" key add 0. -/
theorem C4_token_estimate (np : ℕ) (start : ℚ) (ts : ℕ → ℚ) (lines : List StreamLine)
    (i : ℕ) (gen : Str) (tokens : ℕ) (last : ℚ) :
    (streamLoop np start ts lines i gen tokens last).tokens =
      tokens + ((takeToDone lines).map lineTokens).sum := by
  induction lines generalizing i gen tokens last with
  | nil => simp [streamLoop, takeToDone]
  | cons l rest ih =>
    cases l with
    | empty => simp [streamLoop, takeToDone, lineTokens, ih]
    | malformed => simp [streamLoop, takeToDone, lineTokens, ih]
    | chunk resp d =>
      cases d with
      | true => cases resp <;> simp [streamLoop, takeToDone, lineTokens]
      | false =>
        cases resp with
        | none => simp [streamLoop, takeToDone, lineTokens, ih]
        | some s =>
          simp [streamLoop, takeToDone, lineTokens, ih]
          omega

/-- C4 counterexample: a parsed chunk whose "response" fragment is the empty
string adds 1 to the token estimate (`max(1, len("".split())) = 1`), whereas
the spec says an empty fragment contributes 0. -/
theorem C4_token_estimate_counterexample :
    (streamLoop 300 0 (fun _ => 0) [StreamLine.chunk (some []) true] 0 [] 0 0).tokens = 1 ∧
    (1 : ℕ) ≠ 0 :=
  ⟨rfl, by decide⟩

theorem streamLoop_reports_progress (np : ℕ) (start : ℚ) (ts : ℕ → ℚ)
    (lines : List StreamLine) (i : ℕ) (gen : Str) (tokens : ℕ) (last : ℚ) :
    ∀ rep ∈ (streamLoop np start ts lines i gen tokens last).reports,
      ∃ t r e, rep = Report.progress (pctOf t np) t r e := by
  induction lines generalizing i gen tokens last with
  | nil => intro rep h; simp [streamLoop] at h
  | cons l rest ih =>
    cases l with
    | empty => intro rep h; rw [streamLoop] at h; exact ih _ _ _ _ rep h
    | malformed => intro rep h; rw [streamLoop] at h; exact ih _ _ _ _ rep h
    | chunk resp d =>
      cases d with
      | true =>
        intro rep h
        simp [streamLoop] at h
        exact ⟨_, _, _, h⟩
      | false =>
        intro rep h
        simp [streamLoop] at h
        rcases h with ⟨-, h⟩ | h
        · exact ⟨_, _, _, h⟩
        · exact ih _ _ _ _ rep h

theorem streamLoop_generated_eq (np : ℕ) (start : ℚ) (ts : ℕ → ℚ)
    (lines : List StreamLine) (i : ℕ) (gen : Str) (tokens : ℕ) (last : ℚ) :
    (streamLoop np start ts lines i gen tokens last).generated =
      gen ++ (takeToDone lines).flatMap lineFrag := by
  induction lines generalizing i gen tokens last with
  | nil => simp [streamLoop, takeToDone]
  | cons l rest ih =>
    cases l with
    | empty => simp [streamLoop, takeToDone, lineFrag, ih]
    | malformed => simp [streamLoop, takeToDone, lineFrag, ih]
    | chunk resp d =>
      cases d with
      | true => cases resp <;> simp [streamLoop, takeToDone, lineFrag]
      | false => cases resp <;> simp [streamLoop, takeToDone, lineFrag, ih]

theorem streamLoop_remaining_eq (np : ℕ) (start : ℚ) (ts : ℕ → ℚ)
    (pre post : List StreamLine) (resp : Option Str)
    (i : ℕ) (gen : Str) (tokens : ℕ) (last : ℚ)
    (hpre : ∀ l ∈ pre, isDone l = false) :
    (streamLoop np start ts (pre ++ StreamLine.chunk resp true :: post)
      i gen tokens last).remaining = post := by
  induction pre generalizing i gen tokens last with
  | nil => simp [streamLoop]
  | cons l pre' ih =>
    have hl := hpre l (List.mem_cons_self l pre')
    have hpre' : ∀ x ∈ pre', isDone x = false :=
      fun x hx => hpre x (List.mem_cons_of_mem _ hx)
    cases l with
    | empty =>
      rw [List.cons_append, streamLoop]
      exact ih _ _ _ _ hpre'
    | malformed =>
      rw [List.cons_append, streamLoop]
      exact ih _ _ _ _ hpre'
    | chunk r' d' =>
      simp [isDone] at hl
      subst hl
      simp only [List.cons_append]
      simp only [streamLoop]
      simp only [Bool.false_eq_true, if_false]
      exact ih _ _ _ _ hpre'

theorem takeToDone_eq (pre post : List StreamLine) (resp : Option Str)
    (hpre : ∀ l ∈ pre, isDone l = false) :
    takeToDone (pre ++ StreamLine.chunk resp true :: post) =
      pre ++ [StreamLine.chunk resp true] := by
  induction pre with
  | nil => simp [takeToDone]
  | cons l pre' ih =>
    have hl := hpre l (List.mem_cons_self l pre')
    have hpre' : ∀ x ∈ pre', isDone x = false :=
      fun x hx => hpre x (List.mem_cons_of_mem _ hx)
    cases l with
    | empty => simp [takeToDone, ih hpre']
    | malformed => simp [takeToDone, ih hpre']
    | chunk r' d' =>
      simp [isDone] at hl
      subst hl
      simp [takeToDone, ih hpre']

/-- C10: for a stream whose first terminal chunk (`done: true`) is followed by
further lines, the monitor stops at the terminal chunk leaving the rest of the
stream unconsumed, the emitted report sequence contains exactly one final
(100%) line, every throttled progress line reports at most 99%, and the
returned value is the accumulated text (the fragments of the lines up to and
including the terminal chunk) stripped of leading and trailing whitespace. -/
theorem C10_stream_termination (np : ℕ) (start last0 : ℚ) (ts : ℕ → ℚ)
    (pre post : List StreamLine) (resp : Option Str)
    (hpre : ∀ l ∈ pre, isDone l = false) :
    (streamLoop np start ts (pre ++ StreamLine.chunk resp true :: post)
        0 [] 0 last0).remaining = post ∧
    ((stream_generate np start last0 ts
        (pre ++ StreamLine.chunk resp true :: post)).2.filter isFinal).length = 1 ∧
    (∀ p t r e, Report.progress p t r e ∈
        (stream_generate np start last0 ts
          (pre ++ StreamLine.chunk resp true :: post)).2 → p ≤ 99) ∧
    (stream_generate np start last0 ts (pre ++ StreamLine.chunk resp true :: post)).1 =
      pyStrip ((pre ++ [StreamLine.chunk resp true]).flatMap lineFrag) := by
  refine ⟨streamLoop_remaining_eq np start ts pre post resp 0 [] 0 last0 hpre, ?_, ?_, ?_⟩
  · simp only [stream_generate]
    rw [List.filter_append]
    have hnil : (streamLoop np start ts (pre ++ StreamLine.chunk resp true :: post)
        0 [] 0 last0).reports.filter isFinal = [] := by
      rw [List.filter_eq_nil]
      intro a ha
      obtain ⟨t, r, e, rfl⟩ := streamLoop_reports_progress np start ts
        (pre ++ StreamLine.chunk resp true :: post) 0 [] 0 last0 a ha
      simp [isFinal]
    rw [hnil]
    simp [isFinal]
  · intro p t r e hmem
    simp only [stream_generate, List.mem_append] at hmem
    rcases hmem with hmem | hmem
    · obtain ⟨t', r', e', heq⟩ := streamLoop_reports_progress np start ts
        (pre ++ StreamLine.chunk resp true :: post) 0 [] 0 last0 _ hmem
      rw [Report.progress.injEq] at heq
      rw [heq.1, pctOf]
      exact min_le_left _ _
    · simp at hmem
  · simp only [stream_generate]
    rw [streamLoop_generated_eq, takeToDone_eq pre post resp hpre]
    simp

/-- The prefix of the synthetic stream used to witness C10: a fragment chunk,
a blank keep-alive line, and an unparseable line, none terminal. -/
def preEx : List StreamLine :=
  [StreamLine.chunk (some (cs "hi")) false, StreamLine.empty, StreamLine.malformed]

/-- Lines placed after the terminal chunk in the witness stream. -/
def postEx : List StreamLine := [StreamLine.chunk (some (cs "never")) false]

/-- The fragment carried by the terminal chunk in the witness stream. -/
def respEx : Option Str := some (cs " there ")

theorem C10_stream_termination_witness :
    (∀ l ∈ preEx, isDone l = false) ∧
    ((streamLoop 300 0 (fun _ => 0) (preEx ++ StreamLine.chunk respEx true :: postEx)
        0 [] 0 0).remaining = postEx ∧
    ((stream_generate 300 0 0 (fun _ => 0)
        (preEx ++ StreamLine.chunk respEx true :: postEx)).2.filter isFinal).length = 1 ∧
    (∀ p t r e, Report.progress p t r e ∈
        (stream_generate 300 0 0 (fun _ => 0)
          (preEx ++ StreamLine.chunk respEx true :: postEx)).2 → p ≤ 99) ∧
    (stream_generate 300 0 0 (fun _ => 0)
        (preEx ++ StreamLine.chunk respEx true :: postEx)).1 =
      pyStrip ((preEx ++ [StreamLine.chunk respEx true]).flatMap lineFrag)) :=
  ⟨by decide, C10_stream_termination 300 0 0 (fun _ => 0) preEx postEx respEx (by decide)⟩
